import Mathlib

/-!
A shallow embedding of the `cargo-fixit` diagnostic-fix convergence engine
(`src/ops/fixit.rs`), together with proofs about its behaviour.

The embedding follows the source closely:
* `collect_errors` mirrors `fn collect_errors` (grouping diagnostics by build
  unit, rejecting unsafe suggestions);
* `fix_errors` / `fixFile` mirror `fn fix_errors` (the patch applier loop);
* `execPass` / `execLoop` mirror the main loop of `fn exec`;
* `checkPass` mirrors `fn check` (the build-pass oracle: the decoded message
  stream together with the subprocess exit code).

`IndexMap`/`IndexSet` (insertion-ordered maps/sets) are modelled as
association lists / lists with membership-checked append, `HashSet` as a list
used only through membership and insertion.
-/

/-- One buildable target plus the owning package identity, used as a map key
with structural equality (mirrors `BuildUnit` from `ops/check.rs`). -/
structure BuildUnit where
  target : String
  package_id : String
deriving DecidableEq, Repr

/-- A span inside a named file (mirrors `rustfix::diagnostics::Snippet`
restricted to the fields the engine reads: the file name and the byte range). -/
structure Snippet where
  file_name : String
  range_start : Nat
  range_end : Nat
deriving DecidableEq, Repr

/-- One span replacement of a suggestion (mirrors `rustfix::Replacement`). -/
structure Replacement where
  snippet : Snippet
  replacement : String
deriving DecidableEq, Repr

/-- One candidate solution: an ordered list of replacements
(mirrors `rustfix::Solution`). -/
structure Solution where
  replacements : List Replacement
deriving DecidableEq, Repr

/-- A machine-suggested edit: an ordered list of candidate solutions
(mirrors `rustfix::Suggestion`). -/
structure Suggestion where
  solutions : List Solution
deriving DecidableEq, Repr

/-- A single compiler diagnostic as the engine consumes it: its optional
rendered text and the result of the external suggestion extraction. -/
structure Diagnostic where
  rendered : Option String
  suggestion : Option Suggestion
deriving DecidableEq, Repr

/-- Modelled from the spec: `rustfix::collect_suggestions` is an external
collaborator ("Suggestion Classifier" input, spec §4.2); it either extracts the
mechanically-safe suggestion attached to a diagnostic or yields none.  The
safety-mode filter chosen from `__CARGO_FIX_YOLO` only widens which diagnostics
carry a suggestion, so the extraction result is carried directly on the
diagnostic. -/
def collect_suggestions (d : Diagnostic) : Option Suggestion :=
  d.suggestion

/-- A compiler-message event: the owning build unit plus the diagnostic body
(mirrors `Message` from `ops/check.rs`). -/
structure Message where
  build_unit : BuildUnit
  message : Diagnostic
deriving DecidableEq, Repr

/-- An artifact/progress event: the build unit plus the freshness flag
(mirrors `Artifact` from `ops/check.rs`). -/
structure Artifact where
  build_unit : BuildUnit
  fresh : Bool
deriving DecidableEq, Repr

/-- One decoded line of the build subprocess output
(mirrors `CheckOutput` from `ops/check.rs`). -/
inductive CheckOutput
  | message (m : Message)
  | artifact (a : Artifact)
deriving DecidableEq, Repr

/-- The build unit an event is about. -/
def CheckOutput.buildUnit : CheckOutput → BuildUnit
  | .message m => m.build_unit
  | .artifact a => a.build_unit

/-! ### Insertion-ordered maps and sets

`IndexMap` is modelled as an association list in insertion order;
`IndexSet` as a duplicate-free list in insertion order. -/

/-- `IndexMap::get`: first binding of a key. -/
def imLookup [DecidableEq α] : List (α × β) → α → Option β
  | [], _ => none
  | (a, b) :: t, k => if a = k then some b else imLookup t k

/-- `IndexMap::entry(k).or_insert(v)`: append a fresh binding at the end when
the key is absent. -/
def imOrInsert [DecidableEq α] (m : List (α × β)) (k : α) (v : β) : List (α × β) :=
  if (imLookup m k).isSome then m else m ++ [(k, v)]

/-- Apply a function to the value bound to a key (in place, keeping order). -/
def imUpdate [DecidableEq α] : List (α × β) → α → (β → β) → List (α × β)
  | [], _, _ => []
  | (a, b) :: t, k, f =>
    if a = k then (a, f b) :: imUpdate t k f else (a, b) :: imUpdate t k f

/-- `IndexMap::shift_remove`: drop the binding of a key. -/
def imShiftRemove [DecidableEq α] : List (α × β) → α → List (α × β)
  | [], _ => []
  | (a, b) :: t, k =>
    if a = k then imShiftRemove t k else (a, b) :: imShiftRemove t k

/-- `entry(k).or_insert(v)` followed by a mutation of the entry. -/
def imUpsert [DecidableEq α] (m : List (α × β)) (k : α) (v : β) (f : β → β) :
    List (α × β) :=
  imUpdate (imOrInsert m k v) k f

/-- `IndexSet::insert`: append when not already present. -/
def isInsert [DecidableEq α] (s : List α) (a : α) : List α :=
  if a ∈ s then s else s ++ [a]

/-! ### `collect_errors` -/

/-- An accepted edit together with the diagnostic's rendered text, as stored in
the per-file `IndexSet<(Suggestion, Option<String>)>`. -/
abbrev SuggPair := Suggestion × Option String

/-- Per-unit map from file name to its accepted edits. -/
abbrev FileMap := List (String × List SuggPair)

/-- Map from build unit to its accumulated error texts. -/
abbrev ErrorsMap := List (BuildUnit × List String)

/-- Map from build unit to its per-file accepted edits. -/
abbrev UnitMap := List (BuildUnit × FileMap)

/-- The environment `collect_errors` consults: the `CARGO_HOME` variable and
the sysroot reported by the external `get_sysroot` helper. -/
structure CollectEnv where
  cargo_home : Option String
  sysroot : Option String
deriving Repr

/-- Split a path into its `/`-separated components. -/
def splitPathAux : List Char → List Char → List String
  | [], acc => [(acc.reverse).asString]
  | c :: t, acc =>
    if c = '/' then (acc.reverse).asString :: splitPathAux t []
    else splitPathAux t (c :: acc)

/-- The `/`-separated components of a path. -/
def pathComponents (p : String) : List String :=
  splitPathAux p.toList []

/-- `Path::starts_with`: component-wise path prefix. -/
def pathStartsWith (p base : String) : Bool :=
  (pathComponents base).isPrefixOf (pathComponents p)

/-- The protected-path test of `collect_errors` (registry cache / sysroot):
`file_path.starts_with(home)` or `file_path.starts_with(sysroot)`. -/
def isProtected (env : CollectEnv) (file : String) : Bool :=
  (match env.cargo_home with
   | some home => pathStartsWith file home
   | none => false) ||
  (match env.sysroot with
   | some sysroot => pathStartsWith file sysroot
   | none => false)

/-- All file names named by a suggestion's replacements, across all solutions
(`suggestion.solutions.iter().flat_map(|s| s.replacements...).map(...file_name)`). -/
def suggestionFiles (s : Suggestion) : List String :=
  (s.solutions.flatMap fun sol => sol.replacements).map fun r => r.snippet.file_name

/-- Insert a rendered text (when present) into a unit's error set
(`if let Some(rendered) = diagnostic.rendered { errors.insert(rendered) }`). -/
def insertRendered (errors : ErrorsMap) (u : BuildUnit) (r : Option String) :
    ErrorsMap :=
  match r with
  | some s => imUpdate errors u fun l => isInsert l s
  | none => errors

/-- One iteration of the `for message in messages` loop of `collect_errors`. -/
def collectStep (env : CollectEnv) (seen : List BuildUnit)
    (st : ErrorsMap × UnitMap) (out : CheckOutput) : ErrorsMap × UnitMap :=
  match out with
  | .artifact a =>
    if a.build_unit ∈ seen then st
    else if a.fresh then st
    else (st.1, imOrInsert st.2 a.build_unit [])
  | .message m =>
    let bu := m.build_unit
    let diagnostic := m.message
    let errors := imOrInsert st.1 bu []
    if bu ∈ seen then (errors, st.2)
    else
      let bum := imOrInsert st.2 bu []
      match collect_suggestions diagnostic with
      | none => (insertRendered errors bu diagnostic.rendered, bum)
      | some suggestion =>
        match suggestionFiles suggestion with
        | [] => (insertRendered errors bu diagnostic.rendered, bum)
        | file_name :: rest =>
          if rest.any fun f => f ≠ file_name then
            (insertRendered errors bu diagnostic.rendered, bum)
          else if isProtected env file_name then
            (errors, bum)
          else
            (errors,
             imUpdate bum bu fun fm =>
               imUpsert fm file_name [] fun l =>
                 isInsert l (suggestion, diagnostic.rendered))

/-- `fn collect_errors`: fold the decoded event stream into the per-unit error
map and the per-unit file/edit map. -/
def collect_errors (env : CollectEnv) (messages : List CheckOutput)
    (seen : List BuildUnit) : ErrorsMap × UnitMap :=
  messages.foldl (collectStep env seen) ([], [])

/-! ### The patch applier

`rustfix::CodeFix` is an external collaborator; the engine only observes it
through `apply` (success / `AlreadyReplaced { is_identical: true }` / other
error), `modified` and `finish`. -/

/-- All replacements a suggestion carries, in application order. -/
def suggReplacements (s : Suggestion) : List Replacement :=
  s.solutions.flatMap fun sol => sol.replacements

/-- Modelled from the spec: the state of the external `rustfix::CodeFix` patch
engine (spec §4.4).  The buffer is the original text plus the set of committed
span replacements, anchored to the original text so that applying edits in
reverse discovery order needs no offset recomputation. -/
structure CodeFix where
  original : String
  patches : List (Nat × Nat × String)
  modified : Bool
deriving Repr

/-- `CodeFix::new`: an unmodified buffer over the file's current text. -/
def CodeFix.new (code : String) : CodeFix :=
  ⟨code, [], false⟩

/-- Characters `[a, b)` of a string. -/
def stringSlice (s : String) (a b : Nat) : String :=
  (((s.toList).drop a).take (b - a)).asString

/-- How one replacement relates to the current buffer. -/
inductive ReplOutcome
  | fresh
  | identical
  | bad
deriving DecidableEq, Repr

/-- Modelled from the spec: classify one replacement against the buffer
(spec §4.4): an out-of-range span or a region already mutated differently is a
conflict; a region that already holds the byte-identical replacement text is an
idempotent no-op; otherwise the replacement genuinely applies. -/
def classifyRepl (original : String) (patches : List (Nat × Nat × String))
    (r : Replacement) : ReplOutcome :=
  if r.snippet.range_end > original.length ∨
      r.snippet.range_start > r.snippet.range_end then .bad
  else if (r.snippet.range_start, r.snippet.range_end, r.replacement) ∈ patches then
    .identical
  else if patches.any fun p =>
      r.snippet.range_start ≤ p.2.1 ∧ p.1 ≤ r.snippet.range_end then .bad
  else if stringSlice original r.snippet.range_start r.snippet.range_end =
      r.replacement then .identical
  else .fresh

/-- Modelled from the spec: attempt a list of replacements against the buffer,
committing the genuinely-applying ones and flagging whether any replacement
was fresh and whether any conflicted. -/
def applyRepls (original : String) :
    List (Nat × Nat × String) → Bool → Bool → List Replacement →
    List (Nat × Nat × String) × Bool × Bool
  | patches, sawFresh, sawBad, [] => (patches, sawFresh, sawBad)
  | patches, sawFresh, sawBad, r :: rs =>
    match classifyRepl original patches r with
    | .bad => applyRepls original patches sawFresh true rs
    | .identical => applyRepls original patches sawFresh sawBad rs
    | .fresh =>
      applyRepls original
        ((r.snippet.range_start, r.snippet.range_end, r.replacement) :: patches)
        true sawBad rs

/-- The outcome of applying one suggestion, as the `fix_errors` loop matches on
it: `Ok(())`, `Err(AlreadyReplaced { is_identical: true })`, or another error. -/
inductive SuggOutcome
  | applied
  | identical
  | conflict
deriving DecidableEq, Repr

/-- Modelled from the spec: `CodeFix::apply` — attempt every replacement of the
suggestion; a conflicting replacement makes the whole attempt an error, an
attempt whose replacements were all idempotent no-ops reports
already-replaced-identical, and the buffer is marked modified only when some
replacement genuinely applied. -/
def CodeFix.apply (cf : CodeFix) (s : Suggestion) : CodeFix × SuggOutcome :=
  match applyRepls cf.original cf.patches false false (suggReplacements s) with
  | (ps, sawFresh, sawBad) =>
    let cf' : CodeFix := ⟨cf.original, ps, cf.modified || sawFresh⟩
    if sawBad then (cf', .conflict)
    else if sawFresh then (cf', .applied)
    else (cf', .identical)

/-- Insert a patch into a list sorted by decreasing start offset. -/
def insertPatch (p : Nat × Nat × String) :
    List (Nat × Nat × String) → List (Nat × Nat × String)
  | [] => [p]
  | q :: t => if q.1 ≤ p.1 then p :: q :: t else q :: insertPatch p t

/-- Sort patches by decreasing start offset. -/
def sortPatches (ps : List (Nat × Nat × String)) : List (Nat × Nat × String) :=
  ps.foldr insertPatch []

/-- Replace characters `[a, b)` of a string. -/
def replaceRange (s : String) (a b : Nat) (t : String) : String :=
  ((s.toList.take a).asString) ++ t ++ ((s.toList.drop b).asString)

/-- Modelled from the spec: `CodeFix::finish` — materialise the buffer by
applying the committed patches to the original text, later spans first. -/
def CodeFix.finish (cf : CodeFix) : String :=
  (sortPatches cf.patches).foldl (fun acc p => replaceRange acc p.1 p.2.1 p.2.2)
    cf.original

/-! ### `fix_errors` -/

/-- The state of the per-file edit loop of `fix_errors`: the buffer, the fix
counter, the unit's error set, and the trace of attempted suggestions in
attempt order. -/
structure FixFileState where
  cf : CodeFix
  num_fixes : Nat
  errors : List String
  attempted : List Suggestion

/-- One iteration of `for (suggestion, rendered) in suggestions.iter().rev()`:
apply the suggestion; count a success, ignore an idempotent no-op, record the
rendered text on any other error. -/
def fixStep (st : FixFileState) (p : SuggPair) : FixFileState :=
  match st.cf.apply p.1 with
  | (cf', outcome) =>
    let st' : FixFileState :=
      { st with cf := cf', attempted := st.attempted ++ [p.1] }
    match outcome with
    | .applied => { st' with num_fixes := st'.num_fixes + 1 }
    | .identical => st'
    | .conflict =>
      { st' with
        errors := match p.2 with
                  | some r => isInsert st'.errors r
                  | none => st'.errors }

/-- The per-file body of `fix_errors`: build a buffer from the file's text and
attempt the collected edits in reverse discovery order. -/
def fixFile (code : String) (suggestions : List SuggPair)
    (errors : List String) : FixFileState :=
  (suggestions.reverse).foldl fixStep ⟨CodeFix.new code, 0, errors, []⟩

/-- The result of `fn fix_errors`: the per-file fix counters, the unit's error
set, the made-changes flag, the resulting file system, and the writes
performed (file, new contents) in order. -/
structure FixOut where
  files : List (String × Nat)
  errors : List String
  made_changes : Bool
  fsys : String → Option String
  writes : List (String × String)

/-- `fn fix_errors`: for each file of the unit's map, read it (on failure keep
all its rendered texts as errors and skip the file), attempt its edits in
reverse discovery order, and write the buffer back only when genuinely
modified. -/
def fix_errors :
    (String → Option String) → List (String × Nat) → FileMap → List String →
      FixOut
  | fsys, files, [], errors => ⟨files, errors, false, fsys, []⟩
  | fsys, files, (file, suggestions) :: rest, errors =>
    match fsys file with
    | none =>
      fix_errors fsys files rest
        ((suggestions.filterMap fun p => p.2).foldl isInsert errors)
    | some code =>
      let r := fixFile code suggestions errors
      if r.cf.modified then
        let new_code := r.cf.finish
        let fsys' : String → Option String :=
          fun g => if g = file then some new_code else fsys g
        let files' := imUpsert files file 0 fun n => n + r.num_fixes
        let out := fix_errors fsys' files' rest r.errors
        { out with made_changes := true, writes := (file, new_code) :: out.writes }
      else
        fix_errors fsys files rest r.errors

/-! ### The convergence controller (`fn exec`) -/

/-- The configuration of one run: the version-control precondition result, the
iteration cap (`CARGO_FIX_MAX_RETRIES`, default 4), and the protected-path
environment. -/
structure ExecEnv where
  vcsOk : Bool
  max_iterations : Nat
  cargo_home : Option String
  sysroot : Option String

/-- The environment slice `collect_errors` sees. -/
def ExecEnv.collectEnv (e : ExecEnv) : CollectEnv :=
  ⟨e.cargo_home, e.sysroot⟩

/-- The loop state of `fn exec`: buffered fix counts, the iteration counter,
the previous pass's error map, the current unit, the seen set, and the working
tree contents. -/
structure ExecState where
  files : List (String × Nat)
  iteration : Nat
  last_errors : ErrorsMap
  current_target : Option BuildUnit
  seen : List BuildUnit
  fsys : String → Option String

/-- Observable actions of one run, in order: the "Checking" announcement for a
unit, a per-file fix-count report, a printed error text (already formatted:
trailing whitespace trimmed plus a blank-line separator), the moment a unit is
made current, the invocation of `fix_errors` for a unit, and a file write. -/
inductive Event
  | checking (u : BuildUnit)
  | fixedReport (file : String) (fixes : Nat)
  | errorPrint (s : String)
  | selected (u : BuildUnit)
  | fixUnit (u : BuildUnit)
  | wrote (file : String) (content : String)
deriving DecidableEq, Repr

/-- `shell::status("Checking", ...)` guarded by
`seen.iter().all(|b| b.package_id != u.package_id)`. -/
def announceChecking (seen : List BuildUnit) (u : BuildUnit) : List Event :=
  if seen.all fun b => b.package_id ≠ u.package_id then [.checking u] else []

/-- Print each error as `format!("{}\n\n", e.trim_end())`. -/
def printErrors (es : List String) : List Event :=
  es.map fun e => .errorPrint (e.trimRight ++ "\n\n")

/-- `shell::fixed(name, file.fixes)` for every buffered file counter. -/
def reportFiles (files : List (String × Nat)) : List Event :=
  files.map fun p => .fixedReport p.1 p.2

/-- The rendered texts still pending in a unit's file map, folded into an
error set (`for (_, e) in e.iter().flat_map(|(_, s)| s)` in the cap branch). -/
def pendingRendered (fm : FileMap) (errs : List String) : List String :=
  (fm.foldl (fun acc p => acc ++ p.2) []).foldl
    (fun acc pair => match pair.2 with
                     | some e => isInsert acc e
                     | none => acc) errs

/-- The iteration-cap branch at the top of the loop (`if iteration >=
max_iterations`): finalize the current unit when one is set, otherwise break.
Returns the updated state, the updated error map, the emitted events, and
whether the loop breaks here. -/
def capStep (env : ExecEnv) (errors : ErrorsMap) (bum : UnitMap)
    (st : ExecState) : ExecState × ErrorsMap × List Event × Bool :=
  if env.max_iterations ≤ st.iteration then
    match st.current_target with
    | some target =>
      let tr1 := announceChecking st.seen target
      let tr2 := reportFiles st.files
      let errs0 := (imLookup errors target).getD []
      let errors' := imShiftRemove errors target
      let errs := match imLookup bum target with
        | some fm => pendingRendered fm errs0
        | none => errs0
      ({ st with files := [], seen := target :: st.seen,
                 current_target := none, iteration := 0 },
       errors', tr1 ++ tr2 ++ printErrors errs, false)
    | none => (st, errors, [], true)
  else (st, errors, [], false)

/-- The accumulator of the `for (build_unit, file_map) in build_unit_map`
loop. -/
structure LoopAcc where
  errors : ErrorsMap
  files : List (String × Nat)
  fsys : String → Option String
  current_target : Option BuildUnit
  seen : List BuildUnit
  made_changes : Bool
  trace : List Event

/-- The per-unit loop of `fn exec`: skip seen units; create the unit's error
entry; finalize on the spot a unit with no fixable files while no unit is
current; otherwise, when the unit is (or becomes, via `get_or_insert`) the
current one, run `fix_errors` on it and stop the loop as soon as changes were
made. -/
def unitLoop : List (BuildUnit × FileMap) → LoopAcc → LoopAcc
  | [], acc => acc
  | (build_unit, file_map) :: rest, acc =>
    if build_unit ∈ acc.seen then unitLoop rest acc
    else
      let errors := imOrInsert acc.errors build_unit []
      if acc.current_target = none ∧ file_map = [] then
        let tr := announceChecking acc.seen build_unit ++
          printErrors ((imLookup errors build_unit).getD [])
        unitLoop rest
          { acc with errors := imShiftRemove errors build_unit,
                     seen := build_unit :: acc.seen,
                     trace := acc.trace ++ tr }
      else if file_map ≠ [] ∧
          (acc.current_target = none ∨ acc.current_target = some build_unit) then
        let selEvents : List Event :=
          if acc.current_target = none then [.selected build_unit] else []
        let r := fix_errors acc.fsys acc.files file_map
          ((imLookup errors build_unit).getD [])
        let acc' : LoopAcc :=
          { acc with errors := imUpdate errors build_unit fun _ => r.errors,
                     files := r.files, fsys := r.fsys,
                     current_target := some build_unit,
                     trace := acc.trace ++ selEvents ++ [.fixUnit build_unit] ++
                       r.writes.map fun w => Event.wrote w.1 w.2 }
        if r.made_changes then { acc' with made_changes := true }
        else unitLoop rest acc'
      else unitLoop rest { acc with errors := errors }

/-- One iteration of the main loop of `fn exec` for a given decoded message
stream: collect, run the cap branch, run the per-unit loop, then either
iterate, finalize the current unit, or stop.  Returns the next state, the
emitted events, and whether the loop continues. -/
def execPass (env : ExecEnv) (messages : List CheckOutput) (st : ExecState) :
    ExecState × List Event × Bool :=
  match collect_errors env.collectEnv messages st.seen with
  | (errors0, build_unit_map) =>
    match capStep env errors0 build_unit_map st with
    | (st1, errors1, tr1, brk) =>
      if brk then (st1, tr1, false)
      else
        let acc := unitLoop build_unit_map
          ⟨errors1, st1.files, st1.fsys, st1.current_target, st1.seen, false, []⟩
        if acc.made_changes then
          ({ files := acc.files, iteration := st1.iteration + 1,
             last_errors := acc.errors, current_target := acc.current_target,
             seen := acc.seen, fsys := acc.fsys },
           tr1 ++ acc.trace, true)
        else
          match acc.current_target with
          | some pkg =>
            let tr2 := announceChecking acc.seen pkg ++ reportFiles acc.files ++
              printErrors ((imLookup acc.errors pkg).getD [])
            ({ files := [], iteration := 0,
               last_errors := imShiftRemove acc.errors pkg,
               current_target := none, seen := pkg :: acc.seen,
               fsys := acc.fsys },
             tr1 ++ acc.trace ++ tr2, true)
          | none =>
            ({ files := acc.files, iteration := st1.iteration + 1,
               last_errors := acc.errors, current_target := none,
               seen := acc.seen, fsys := acc.fsys },
             tr1 ++ acc.trace, false)

/-- `fn check`: one build pass of the external oracle — the decoded event
stream together with the subprocess exit code, which `exec` destructures and
ignores. -/
def checkPass (pass : List CheckOutput × Option Int) :
    List CheckOutput × Option Int :=
  pass

/-- The fuelled main loop of `fn exec`: run passes until a pass does not
continue; `none` when the fuel (an upper bound on the number of passes) is
exhausted.  Returns the final state, the trace, and the number of passes
performed. -/
def execLoop (env : ExecEnv) (passes : Nat → List CheckOutput × Option Int) :
    Nat → Nat → ExecState → Option (ExecState × List Event × Nat)
  | 0, _, _ => none
  | fuel + 1, passIdx, st =>
    match checkPass (passes passIdx) with
    | (messages, _exit_code) =>
      match execPass env messages st with
      | (st', tr, cont) =>
        if cont then
          match execLoop env passes fuel (passIdx + 1) st' with
          | some (stF, trF, n) => some (stF, tr ++ trF, n + 1)
          | none => none
        else some (st', tr, 1)

/-- The initial loop state of `fn exec` over a given working tree. -/
def initState (fsys : String → Option String) : ExecState :=
  ⟨[], 0, [], none, [], fsys⟩

/-- All residual error texts of the final state, in map order. -/
def errorsFlat (m : ErrorsMap) : List String :=
  m.foldl (fun acc p => acc ++ p.2) []

/-- The epilogue of `fn exec`: report remaining fix counts and print the
residual errors of the last pass. -/
def finalEvents (st : ExecState) : List Event :=
  reportFiles st.files ++ printErrors (errorsFlat st.last_errors)

/-- `fn exec`: check the version-control precondition, then drive the loop.
The result is `Ok` carrying the run's observable events, final state and pass
count (or `none` inside `Ok` when the fuel bound was exhausted). -/
def exec (env : ExecEnv) (passes : Nat → List CheckOutput × Option Int)
    (fsys : String → Option String) (fuel : Nat) :
    Except String (Option (List Event × ExecState × Nat)) :=
  if env.vcsOk then
    .ok ((execLoop env passes fuel 0 (initState fsys)).map
      fun r => (r.2.1 ++ finalEvents r.1, r.1, r.2.2))
  else .error "working tree is in an unacceptable state"

/-! ### Basic facts about the map and set operations -/

/-- The keys of an association list, in order. -/
def imKeys (m : List (α × β)) : List α :=
  m.map Prod.fst

theorem imLookup_append [DecidableEq α] (m m' : List (α × β)) (k : α) :
    imLookup (m ++ m') k =
      match imLookup m k with
      | some b => some b
      | none => imLookup m' k := by
  induction m with
  | nil => simp [imLookup]
  | cons p t ih =>
    obtain ⟨a, b⟩ := p
    by_cases h : a = k <;> simp [imLookup, h, ih]

theorem imLookup_eq_none_iff [DecidableEq α] (m : List (α × β)) (k : α) :
    imLookup m k = none ↔ k ∉ imKeys m := by
  induction m with
  | nil => simp [imLookup, imKeys]
  | cons p t ih =>
    obtain ⟨a, b⟩ := p
    by_cases h : a = k
    · subst h
      simp [imLookup, imKeys]
    · simp [imLookup, imKeys, h, Ne.symm h] at *
      exact ih

theorem imLookup_isSome_iff [DecidableEq α] (m : List (α × β)) (k : α) :
    (imLookup m k).isSome = true ↔ k ∈ imKeys m := by
  rw [← Decidable.not_iff_not, ← imLookup_eq_none_iff m k]
  cases imLookup m k <;> simp

theorem imLookup_orInsert_ne [DecidableEq α] (m : List (α × β)) (k k' : α) (v : β)
    (h : k ≠ k') : imLookup (imOrInsert m k v) k' = imLookup m k' := by
  unfold imOrInsert
  by_cases hs : (imLookup m k).isSome = true
  · simp [hs]
  · rw [if_neg hs, imLookup_append]
    cases hm : imLookup m k' <;> simp [imLookup, h]

theorem imLookup_orInsert_self [DecidableEq α] (m : List (α × β)) (k : α) (v : β) :
    imLookup (imOrInsert m k v) k =
      match imLookup m k with
      | some b => some b
      | none => some v := by
  unfold imOrInsert
  by_cases hs : (imLookup m k).isSome = true
  · rw [if_pos hs]
    cases hm : imLookup m k
    · simp [hm] at hs
    · simp
  · rw [if_neg hs, imLookup_append]
    cases hm : imLookup m k
    · simp [imLookup]
    · simp [hm] at hs

theorem imLookup_update_self [DecidableEq α] (m : List (α × β)) (k : α) (f : β → β) :
    imLookup (imUpdate m k f) k = (imLookup m k).map f := by
  induction m with
  | nil => simp [imLookup, imUpdate]
  | cons p t ih =>
    obtain ⟨a, b⟩ := p
    by_cases h : a = k
    · subst h
      simp [imLookup, imUpdate]
    · simp [imLookup, imUpdate, h, ih]

theorem imLookup_update_ne [DecidableEq α] (m : List (α × β)) (k k' : α)
    (f : β → β) (h : k ≠ k') : imLookup (imUpdate m k f) k' = imLookup m k' := by
  induction m with
  | nil => simp [imLookup, imUpdate]
  | cons p t ih =>
    obtain ⟨a, b⟩ := p
    by_cases ha : a = k
    · subst ha
      simp [imLookup, imUpdate, h, Ne.symm h, ih]
    · by_cases ha' : a = k'
      · subst ha'
        simp [imLookup, imUpdate, ha]
      · simp [imLookup, imUpdate, ha, ha', ih]

theorem imLookup_shiftRemove_self [DecidableEq α] (m : List (α × β)) (k : α) :
    imLookup (imShiftRemove m k) k = none := by
  induction m with
  | nil => simp [imLookup, imShiftRemove]
  | cons p t ih =>
    obtain ⟨a, b⟩ := p
    by_cases h : a = k <;> simp [imLookup, imShiftRemove, h, ih]

theorem imLookup_shiftRemove_ne [DecidableEq α] (m : List (α × β)) (k k' : α)
    (h : k ≠ k') : imLookup (imShiftRemove m k) k' = imLookup m k' := by
  induction m with
  | nil => simp [imLookup, imShiftRemove]
  | cons p t ih =>
    obtain ⟨a, b⟩ := p
    by_cases ha : a = k
    · subst ha
      simp [imLookup, imShiftRemove, h, Ne.symm h, ih]
    · by_cases ha' : a = k'
      · subst ha'
        simp [imLookup, imShiftRemove, ha]
      · simp [imLookup, imShiftRemove, ha, ha', ih]

theorem imKeys_update [DecidableEq α] (m : List (α × β)) (k : α) (f : β → β) :
    imKeys (imUpdate m k f) = imKeys m := by
  induction m with
  | nil => rfl
  | cons p t ih =>
    obtain ⟨a, b⟩ := p
    by_cases h : a = k <;> simp [imKeys, imUpdate, h] at * <;> simpa using ih

theorem imKeys_orInsert_nodup [DecidableEq α] (m : List (α × β)) (k : α) (v : β)
    (h : (imKeys m).Nodup) : (imKeys (imOrInsert m k v)).Nodup := by
  unfold imOrInsert
  by_cases hs : (imLookup m k).isSome = true
  · simpa [hs] using h
  · have hk : k ∉ imKeys m := by
      rw [← imLookup_eq_none_iff]
      cases hm : imLookup m k
      · rfl
      · rw [hm] at hs; simp at hs
    rw [if_neg hs]
    simp only [imKeys, List.map_append, List.map_cons, List.map_nil]
    rw [List.nodup_append]
    refine ⟨h, by simp, ?_⟩
    intro a ha hmem
    simp only [List.mem_singleton] at hmem
    subst hmem
    exact hk ha

theorem mem_isInsert_self [DecidableEq α] (s : List α) (a : α) :
    a ∈ isInsert s a := by
  unfold isInsert
  by_cases h : a ∈ s <;> simp [h]

theorem mem_isInsert_of_mem [DecidableEq α] (s : List α) (a b : α)
    (h : b ∈ s) : b ∈ isInsert s a := by
  unfold isInsert
  by_cases ha : a ∈ s <;> simp [ha, h]

theorem mem_foldl_isInsert_of_mem [DecidableEq α] (l : List α) (s : List α)
    (b : α) (h : b ∈ s) : b ∈ l.foldl isInsert s := by
  induction l generalizing s with
  | nil => exact h
  | cons a t ih => exact ih _ (mem_isInsert_of_mem _ _ _ h)

theorem mem_foldl_isInsert_of_mem_list [DecidableEq α] (l : List α) (s : List α)
    (b : α) (h : b ∈ l) : b ∈ l.foldl isInsert s := by
  induction l generalizing s with
  | nil => cases h
  | cons a t ih =>
    rcases List.mem_cons.mp h with h | h
    · subst h
      exact mem_foldl_isInsert_of_mem t (isInsert s b) b (mem_isInsert_self s b)
    · exact ih _ h

/-! ### Structure of `collect_errors` -/

theorem collectStep_map_seen (env : CollectEnv) (seen : List BuildUnit)
    (st : ErrorsMap × UnitMap) (out : CheckOutput)
    (h : out.buildUnit ∈ seen) :
    (collectStep env seen st out).2 = st.2 := by
  cases out with
  | artifact a =>
    simp only [CheckOutput.buildUnit] at h
    simp [collectStep, h]
  | message m =>
    simp only [CheckOutput.buildUnit] at h
    simp [collectStep, h]

theorem collectStep_map_lookup_ne (env : CollectEnv) (seen : List BuildUnit)
    (st : ErrorsMap × UnitMap) (out : CheckOutput) (u : BuildUnit)
    (h : out.buildUnit ≠ u) :
    imLookup (collectStep env seen st out).2 u = imLookup st.2 u := by
  cases out with
  | artifact a =>
    simp only [CheckOutput.buildUnit] at h
    by_cases h1 : a.build_unit ∈ seen
    · simp [collectStep, h1]
    · by_cases h2 : a.fresh <;>
        simp [collectStep, h1, h2, imLookup_orInsert_ne _ _ _ _ h]
  | message m =>
    simp only [CheckOutput.buildUnit] at h
    by_cases h1 : m.build_unit ∈ seen
    · simp [collectStep, h1]
    · simp only [collectStep, h1, if_false]
      cases hcs : collect_suggestions m.message with
      | none => simp [hcs, imLookup_orInsert_ne _ _ _ _ h]
      | some s =>
        cases hsf : suggestionFiles s with
        | nil => simp [hcs, hsf, imLookup_orInsert_ne _ _ _ _ h]
        | cons f rest =>
          by_cases h2 : ∃ g ∈ rest, ¬g = f
          · simp [hcs, hsf, h2, imLookup_orInsert_ne _ _ _ _ h]
          · by_cases h3 : isProtected env f
            · simp [hcs, hsf, h2, h3, imLookup_orInsert_ne _ _ _ _ h]
            · simp [hcs, hsf, h2, h3, imLookup_update_ne _ _ _ _ h,
                imLookup_orInsert_ne _ _ _ _ h]

theorem collectStep_fresh (env : CollectEnv) (seen : List BuildUnit)
    (st : ErrorsMap × UnitMap) (a : Artifact) (h : a.fresh = true) :
    collectStep env seen st (.artifact a) = st := by
  by_cases h1 : a.build_unit ∈ seen <;> simp [collectStep, h1, h]

theorem collect_foldl_map_lookup_none (env : CollectEnv) (seen : List BuildUnit)
    (u : BuildUnit) (msgs : List CheckOutput)
    (hmsgs : ∀ out ∈ msgs, out.buildUnit = u →
      u ∈ seen ∨ ∃ a, out = CheckOutput.artifact a ∧ a.fresh = true) :
    ∀ st : ErrorsMap × UnitMap, imLookup st.2 u = none →
      imLookup (msgs.foldl (collectStep env seen) st).2 u = none := by
  induction msgs with
  | nil => intro st h; exact h
  | cons out rest ih =>
    intro st h
    simp only [List.foldl_cons]
    refine ih (fun o ho => hmsgs o (List.mem_cons_of_mem _ ho)) _ ?_
    by_cases hu : out.buildUnit = u
    · rcases hmsgs out (List.mem_cons_self _ _) hu with hseen | ⟨a, rfl, hfresh⟩
      · rw [collectStep_map_seen env seen st out (hu ▸ hseen)]
        exact h
      · rw [collectStep_fresh env seen st a hfresh]
        exact h
    · rw [collectStep_map_lookup_ne env seen st out u hu]
      exact h

theorem collect_map_lookup_none (env : CollectEnv) (seen : List BuildUnit)
    (u : BuildUnit) (msgs : List CheckOutput)
    (hmsgs : ∀ out ∈ msgs, out.buildUnit = u →
      u ∈ seen ∨ ∃ a, out = CheckOutput.artifact a ∧ a.fresh = true) :
    imLookup (collect_errors env msgs seen).2 u = none :=
  collect_foldl_map_lookup_none env seen u msgs hmsgs ([], []) rfl

theorem collect_map_lookup_none_of_seen (env : CollectEnv) (seen : List BuildUnit)
    (u : BuildUnit) (msgs : List CheckOutput) (h : u ∈ seen) :
    imLookup (collect_errors env msgs seen).2 u = none :=
  collect_map_lookup_none env seen u msgs (fun _ _ _ => Or.inl h)

theorem collectStep_artifact_snd (env : CollectEnv) (seen : List BuildUnit)
    (st : ErrorsMap × UnitMap) (a : Artifact) :
    (collectStep env seen st (.artifact a)).2 = st.2 ∨
    (collectStep env seen st (.artifact a)).2 = imOrInsert st.2 a.build_unit [] := by
  by_cases h1 : a.build_unit ∈ seen
  · left; simp [collectStep, h1]
  · by_cases h2 : a.fresh
    · left; simp [collectStep, h1, h2]
    · right; simp [collectStep, h1, h2]

theorem collectStep_message_snd (env : CollectEnv) (seen : List BuildUnit)
    (st : ErrorsMap × UnitMap) (m : Message) :
    (collectStep env seen st (.message m)).2 = st.2 ∨
    (collectStep env seen st (.message m)).2 = imOrInsert st.2 m.build_unit [] ∨
    ∃ fn sugg,
      (collectStep env seen st (.message m)).2 =
        imUpdate (imOrInsert st.2 m.build_unit []) m.build_unit fun fm =>
          imUpsert fm fn [] fun l => isInsert l (sugg, m.message.rendered) := by
  by_cases h1 : m.build_unit ∈ seen
  · left; simp [collectStep, h1]
  · simp only [collectStep, h1, if_false]
    cases collect_suggestions m.message with
    | none => right; left; simp
    | some s =>
      cases hsf : suggestionFiles s with
      | nil => right; left; simp [hsf]
      | cons f rest =>
        by_cases h2 : ∃ g ∈ rest, ¬g = f
        · right; left; simp [hsf, h2]
        · by_cases h3 : isProtected env f
          · right; left; simp [hsf, h2, h3]
          · right; right
            exact ⟨f, s, by simp [hsf, h2, h3]⟩

theorem collectStep_artifact_fst (env : CollectEnv) (seen : List BuildUnit)
    (st : ErrorsMap × UnitMap) (a : Artifact) :
    (collectStep env seen st (.artifact a)).1 = st.1 := by
  by_cases h1 : a.build_unit ∈ seen
  · simp [collectStep, h1]
  · by_cases h2 : a.fresh <;> simp [collectStep, h1, h2]

theorem collectStep_message_fst (env : CollectEnv) (seen : List BuildUnit)
    (st : ErrorsMap × UnitMap) (m : Message) :
    (collectStep env seen st (.message m)).1 = imOrInsert st.1 m.build_unit [] ∨
    (collectStep env seen st (.message m)).1 =
      insertRendered (imOrInsert st.1 m.build_unit []) m.build_unit
        m.message.rendered := by
  by_cases h1 : m.build_unit ∈ seen
  · left; simp [collectStep, h1]
  · simp only [collectStep, h1, if_false]
    cases collect_suggestions m.message with
    | none => right; simp
    | some s =>
      cases hsf : suggestionFiles s with
      | nil => right; simp [hsf]
      | cons f rest =>
        by_cases h2 : ∃ g ∈ rest, ¬g = f
        · right; simp [hsf, h2]
        · by_cases h3 : isProtected env f
          · left; simp [hsf, h2, h3]
          · left; simp [hsf, h2, h3]

theorem collectStep_errors_seen_inv (env : CollectEnv) (seen : List BuildUnit)
    (st : ErrorsMap × UnitMap) (out : CheckOutput) (u : BuildUnit)
    (hu : u ∈ seen)
    (hinv : ∀ l, imLookup st.1 u = some l → l = []) :
    ∀ l, imLookup (collectStep env seen st out).1 u = some l → l = [] := by
  cases out with
  | artifact a => rw [collectStep_artifact_fst]; exact hinv
  | message m =>
    have hpre : ∀ l,
        imLookup (imOrInsert st.1 m.build_unit []) u = some l → l = [] := by
      by_cases hbu : m.build_unit = u
      · subst hbu
        intro l hl
        rw [imLookup_orInsert_self] at hl
        cases hm : imLookup st.1 m.build_unit with
        | none =>
          rw [hm] at hl
          simp only [Option.some.injEq] at hl
          subst hl
          rfl
        | some l' =>
          rw [hm] at hl
          simp only [Option.some.injEq] at hl
          exact hl ▸ hinv l' hm
      · rw [imLookup_orInsert_ne _ _ _ _ hbu]
        exact hinv
    by_cases h1 : m.build_unit ∈ seen
    · have heq : (collectStep env seen st (.message m)).1 =
          imOrInsert st.1 m.build_unit [] := by
        simp [collectStep, h1]
      rw [heq]
      exact hpre
    · have hbu : m.build_unit ≠ u := fun he => h1 (he ▸ hu)
      rcases collectStep_message_fst env seen st m with heq | heq <;> rw [heq]
      · exact hpre
      · cases hr : m.message.rendered with
        | none => simpa [insertRendered, hr] using hpre
        | some r =>
          simpa [insertRendered, hr, imLookup_update_ne _ _ _ _ hbu] using hpre

theorem collect_errors_seen_empty (env : CollectEnv) (seen : List BuildUnit)
    (u : BuildUnit) (msgs : List CheckOutput) (hu : u ∈ seen) :
    ∀ l, imLookup (collect_errors env msgs seen).1 u = some l → l = [] := by
  suffices h : ∀ st : ErrorsMap × UnitMap,
      (∀ l, imLookup st.1 u = some l → l = []) →
      ∀ l, imLookup (msgs.foldl (collectStep env seen) st).1 u = some l → l = [] by
    exact h ([], []) (by intro l hl; simp [imLookup] at hl)
  induction msgs with
  | nil => intro st h; exact h
  | cons out rest ih =>
    intro st h
    exact ih _ (collectStep_errors_seen_inv env seen st out u hu h)

theorem mem_imKeys_orInsert [DecidableEq α] (m : List (α × β)) (k : α) (v : β)
    (x : α) (h : x ∈ imKeys (imOrInsert m k v)) : x ∈ imKeys m ∨ x = k := by
  unfold imOrInsert at h
  by_cases hs : (imLookup m k).isSome = true
  · rw [if_pos hs] at h; exact Or.inl h
  · rw [if_neg hs] at h
    simpa [imKeys] using h

theorem collectStep_keys_sub (env : CollectEnv) (seen : List BuildUnit)
    (st : ErrorsMap × UnitMap) (out : CheckOutput) (x : BuildUnit)
    (h : x ∈ imKeys (collectStep env seen st out).2) :
    x ∈ imKeys st.2 ∨ x = out.buildUnit := by
  cases out with
  | artifact a =>
    rcases collectStep_artifact_snd env seen st a with heq | heq <;> rw [heq] at h
    · exact Or.inl h
    · exact mem_imKeys_orInsert _ _ _ _ h
  | message m =>
    rcases collectStep_message_snd env seen st m with heq | heq | ⟨fn, sugg, heq⟩ <;>
      rw [heq] at h
    · exact Or.inl h
    · exact mem_imKeys_orInsert _ _ _ _ h
    · rw [imKeys_update] at h
      exact mem_imKeys_orInsert _ _ _ _ h

theorem collect_keys_sub (env : CollectEnv) (seen : List BuildUnit)
    (msgs : List CheckOutput) (x : BuildUnit)
    (h : x ∈ imKeys (collect_errors env msgs seen).2) :
    ∃ out ∈ msgs, CheckOutput.buildUnit out = x := by
  suffices hgen : ∀ st : ErrorsMap × UnitMap,
      x ∈ imKeys (msgs.foldl (collectStep env seen) st).2 →
      x ∈ imKeys st.2 ∨ ∃ out ∈ msgs, CheckOutput.buildUnit out = x by
    rcases hgen ([], []) h with hx | hx
    · simp [imKeys] at hx
    · exact hx
  clear h
  induction msgs with
  | nil => intro st hst; exact Or.inl hst
  | cons out rest ih =>
    intro st hst
    simp only [List.foldl_cons] at hst
    rcases ih (collectStep env seen st out) hst with hx | ⟨o, ho, rfl⟩
    · rcases collectStep_keys_sub env seen st out x hx with hx' | rfl
      · exact Or.inl hx'
      · exact Or.inr ⟨out, List.mem_cons_self _ _, rfl⟩
    · exact Or.inr ⟨o, List.mem_cons_of_mem _ ho, rfl⟩

theorem collectStep_keys_nodup (env : CollectEnv) (seen : List BuildUnit)
    (st : ErrorsMap × UnitMap) (out : CheckOutput)
    (h : (imKeys st.2).Nodup) : (imKeys (collectStep env seen st out).2).Nodup := by
  cases out with
  | artifact a =>
    rcases collectStep_artifact_snd env seen st a with heq | heq <;> rw [heq]
    · exact h
    · exact imKeys_orInsert_nodup _ _ _ h
  | message m =>
    rcases collectStep_message_snd env seen st m with heq | heq | ⟨fn, sugg, heq⟩ <;>
      rw [heq]
    · exact h
    · exact imKeys_orInsert_nodup _ _ _ h
    · rw [imKeys_update]
      exact imKeys_orInsert_nodup _ _ _ h

theorem collect_keys_nodup (env : CollectEnv) (seen : List BuildUnit)
    (msgs : List CheckOutput) :
    (imKeys (collect_errors env msgs seen).2).Nodup := by
  suffices hgen : ∀ st : ErrorsMap × UnitMap, (imKeys st.2).Nodup →
      (imKeys (msgs.foldl (collectStep env seen) st).2).Nodup by
    exact hgen ([], []) (by simp [imKeys])
  induction msgs with
  | nil => intro st h; exact h
  | cons out rest ih =>
    intro st h
    exact ih _ (collectStep_keys_nodup env seen st out h)

/-! ### Structure of the patch applier -/

theorem fixStep_cf (st : FixFileState) (p : SuggPair) :
    (fixStep st p).cf = (st.cf.apply p.1).1 := by
  unfold fixStep
  rcases h : st.cf.apply p.1 with ⟨cf', outcome⟩
  cases outcome <;> simp

theorem fixStep_attempted (st : FixFileState) (p : SuggPair) :
    (fixStep st p).attempted = st.attempted ++ [p.1] := by
  unfold fixStep
  rcases h : st.cf.apply p.1 with ⟨cf', outcome⟩
  cases outcome <;> simp

theorem fixStep_errors_sub (st : FixFileState) (p : SuggPair) :
    st.errors ⊆ (fixStep st p).errors := by
  unfold fixStep
  rcases h : st.cf.apply p.1 with ⟨cf', outcome⟩
  cases outcome with
  | applied => simp
  | identical => simp
  | conflict =>
    cases p.2 with
    | none => simp
    | some r =>
      simp only
      intro e he
      exact mem_isInsert_of_mem _ _ _ he

theorem fixFold_attempted (l : List SuggPair) (st : FixFileState) :
    (l.foldl fixStep st).attempted = st.attempted ++ l.map fun p => p.1 := by
  induction l generalizing st with
  | nil => simp
  | cons p t ih =>
    simp only [List.foldl_cons, List.map_cons]
    rw [ih, fixStep_attempted]
    simp

theorem fixFold_errors_sub (l : List SuggPair) (st : FixFileState) :
    st.errors ⊆ (l.foldl fixStep st).errors := by
  induction l generalizing st with
  | nil => exact fun e he => he
  | cons p t ih =>
    exact fun e he => ih (fixStep st p) (fixStep_errors_sub st p he)

theorem applyRepls_patches_sub (original : String) (rs : List Replacement) :
    ∀ (patches : List (Nat × Nat × String)) (sf sb : Bool),
      patches ⊆ (applyRepls original patches sf sb rs).1 := by
  induction rs with
  | nil => intro patches sf sb; simp [applyRepls]
  | cons r t ih =>
    intro patches sf sb
    unfold applyRepls
    cases h : classifyRepl original patches r with
    | bad => exact ih patches sf true
    | identical => exact ih patches sf sb
    | fresh =>
      intro x hx
      exact ih _ true sb (List.mem_cons_of_mem _ hx)

theorem apply_fst_original (cf : CodeFix) (s : Suggestion) :
    (cf.apply s).1.original = cf.original := by
  unfold CodeFix.apply
  rcases h : applyRepls cf.original cf.patches false false (suggReplacements s)
    with ⟨ps, sf, sb⟩
  by_cases hb : sb <;> by_cases hf : sf <;> simp [hb, hf]

theorem apply_fst_patches_sub (cf : CodeFix) (s : Suggestion) :
    cf.patches ⊆ (cf.apply s).1.patches := by
  unfold CodeFix.apply
  rcases h : applyRepls cf.original cf.patches false false (suggReplacements s)
    with ⟨ps, sf, sb⟩
  have hsub : cf.patches ⊆ ps := by
    have := applyRepls_patches_sub cf.original (suggReplacements s)
      cf.patches false false
    rw [h] at this
    exact this
  by_cases hb : sb <;> by_cases hf : sf <;> simp [hb, hf, hsub]

theorem fixStep_cf_original (st : FixFileState) (p : SuggPair) :
    (fixStep st p).cf.original = st.cf.original := by
  rw [fixStep_cf]
  exact apply_fst_original st.cf p.1

theorem fixStep_cf_patches_sub (st : FixFileState) (p : SuggPair) :
    st.cf.patches ⊆ (fixStep st p).cf.patches := by
  rw [fixStep_cf]
  exact apply_fst_patches_sub st.cf p.1

theorem fixFold_cf_original (l : List SuggPair) (st : FixFileState) :
    (l.foldl fixStep st).cf.original = st.cf.original := by
  induction l generalizing st with
  | nil => rfl
  | cons p t ih =>
    simp only [List.foldl_cons]
    rw [ih, fixStep_cf_original]

theorem fixFold_cf_patches_sub (l : List SuggPair) (st : FixFileState) :
    st.cf.patches ⊆ (l.foldl fixStep st).cf.patches := by
  induction l generalizing st with
  | nil => exact fun x hx => hx
  | cons p t ih =>
    exact fun x hx => ih (fixStep st p) (fixStep_cf_patches_sub st p hx)

theorem classifyRepl_eq_fresh_iff (original : String)
    (patches : List (Nat × Nat × String)) (r : Replacement) :
    classifyRepl original patches r = .fresh ↔
      ¬(r.snippet.range_end > original.length ∨
        r.snippet.range_start > r.snippet.range_end) ∧
      (r.snippet.range_start, r.snippet.range_end, r.replacement) ∉ patches ∧
      ¬(patches.any fun p =>
        r.snippet.range_start ≤ p.2.1 ∧ p.1 ≤ r.snippet.range_end) = true ∧
      stringSlice original r.snippet.range_start r.snippet.range_end ≠
        r.replacement := by
  unfold classifyRepl
  by_cases h1 : r.snippet.range_end > original.length ∨
      r.snippet.range_start > r.snippet.range_end
  · rw [if_pos h1]
    constructor
    · intro hc; exact absurd hc (by decide)
    · rintro ⟨hn, -, -, -⟩; exact absurd h1 hn
  · rw [if_neg h1]
    by_cases h2 : (r.snippet.range_start, r.snippet.range_end, r.replacement) ∈
        patches
    · rw [if_pos h2]
      constructor
      · intro hc; exact absurd hc (by decide)
      · rintro ⟨-, hn, -, -⟩; exact absurd h2 hn
    · rw [if_neg h2]
      by_cases h3 : (patches.any fun p =>
          r.snippet.range_start ≤ p.2.1 ∧ p.1 ≤ r.snippet.range_end) = true
      · rw [if_pos h3]
        constructor
        · intro hc; exact absurd hc (by decide)
        · rintro ⟨-, -, hn, -⟩; exact absurd h3 hn
      · rw [if_neg h3]
        by_cases h4 : stringSlice original r.snippet.range_start
            r.snippet.range_end = r.replacement
        · rw [if_pos h4]
          constructor
          · intro hc; exact absurd hc (by decide)
          · rintro ⟨-, -, -, hn⟩; exact absurd h4 hn
        · rw [if_neg h4]
          exact ⟨fun _ => ⟨h1, h2, h3, h4⟩, fun _ => rfl⟩

theorem classifyRepl_not_fresh_of_sub (original : String)
    (A B : List (Nat × Nat × String)) (r : Replacement) (hAB : A ⊆ B)
    (hfr : classifyRepl original A r = .fresh →
      (r.snippet.range_start, r.snippet.range_end, r.replacement) ∈ B) :
    classifyRepl original B r ≠ .fresh := by
  intro hB
  rw [classifyRepl_eq_fresh_iff] at hB
  obtain ⟨h1, h2, h3, h4⟩ := hB
  have hmA : (r.snippet.range_start, r.snippet.range_end, r.replacement) ∉ A :=
    fun hm => h2 (hAB hm)
  have hoA : ¬(A.any fun p =>
      r.snippet.range_start ≤ p.2.1 ∧ p.1 ≤ r.snippet.range_end) = true := by
    intro ha
    apply h3
    rw [List.any_eq_true] at ha ⊢
    obtain ⟨p, hp, hcond⟩ := ha
    exact ⟨p, hAB hp, hcond⟩
  exact h2 (hfr ((classifyRepl_eq_fresh_iff original A r).mpr ⟨h1, hmA, hoA, h4⟩))

theorem applyRepls_second (original : String) (C : List (Nat × Nat × String)) :
    ∀ (rs : List Replacement) (A : List (Nat × Nat × String)) (sf sb : Bool),
      A ⊆ C → (applyRepls original A sf sb rs).1 ⊆ C →
      ∀ sb2 : Bool, ∃ sb', applyRepls original C false sb2 rs = (C, false, sb') := by
  intro rs
  induction rs with
  | nil => intro A sf sb hA hsub sb2; exact ⟨sb2, rfl⟩
  | cons r t ih =>
    intro A sf sb hA hsub sb2
    unfold applyRepls at hsub
    cases h : classifyRepl original A r with
    | fresh =>
      rw [h] at hsub
      dsimp only at hsub
      have hA' : (r.snippet.range_start, r.snippet.range_end, r.replacement) :: A
          ⊆ C :=
        fun x hx => hsub (applyRepls_patches_sub original t _ true sb hx)
      have hnf : classifyRepl original C r ≠ .fresh :=
        classifyRepl_not_fresh_of_sub original A C r hA
          fun _ => hA' (List.mem_cons_self _ _)
      unfold applyRepls
      cases h2 : classifyRepl original C r with
      | fresh => exact absurd h2 hnf
      | identical => exact ih _ true sb hA' hsub sb2
      | bad => exact ih _ true sb hA' hsub true
    | identical =>
      rw [h] at hsub
      dsimp only at hsub
      have hnf : classifyRepl original C r ≠ .fresh :=
        classifyRepl_not_fresh_of_sub original A C r hA
          fun hf => absurd (h.symm.trans hf) (by simp)
      unfold applyRepls
      cases h2 : classifyRepl original C r with
      | fresh => exact absurd h2 hnf
      | identical => exact ih A sf sb hA hsub sb2
      | bad => exact ih A sf sb hA hsub true
    | bad =>
      rw [h] at hsub
      dsimp only at hsub
      have hnf : classifyRepl original C r ≠ .fresh :=
        classifyRepl_not_fresh_of_sub original A C r hA
          fun hf => absurd (h.symm.trans hf) (by simp)
      unfold applyRepls
      cases h2 : classifyRepl original C r with
      | fresh => exact absurd h2 hnf
      | identical => exact ih A sf true hA hsub sb2
      | bad => exact ih A sf true hA hsub true

theorem apply_second (cf1 : CodeFix) (s : Suggestion)
    (A : List (Nat × Nat × String)) (sf sb : Bool) (hA : A ⊆ cf1.patches)
    (hsub : (applyRepls cf1.original A sf sb (suggReplacements s)).1 ⊆ cf1.patches) :
    ∃ o, cf1.apply s = (cf1, o) ∧ o ≠ SuggOutcome.applied := by
  obtain ⟨sb', heq⟩ := applyRepls_second cf1.original cf1.patches
    (suggReplacements s) A sf sb hA hsub false
  unfold CodeFix.apply
  rw [heq]
  by_cases hb : sb' = true
  · exact ⟨.conflict, by simp [hb], by simp⟩
  · exact ⟨.identical, by simp [hb], by simp⟩

theorem apply_fst_patches (cf : CodeFix) (s : Suggestion) :
    (cf.apply s).1.patches =
      (applyRepls cf.original cf.patches false false (suggReplacements s)).1 := by
  unfold CodeFix.apply
  rcases h : applyRepls cf.original cf.patches false false (suggReplacements s)
    with ⟨ps, sf, sb⟩
  by_cases hb : sb = true <;> by_cases hf : sf = true <;> simp [hb, hf]

theorem fixStep_second (st2 : FixFileState) (p : SuggPair) (o : SuggOutcome)
    (happ : st2.cf.apply p.1 = (st2.cf, o)) (ho : o ≠ SuggOutcome.applied) :
    (fixStep st2 p).cf = st2.cf ∧ (fixStep st2 p).num_fixes = st2.num_fixes := by
  unfold fixStep
  rw [happ]
  cases o with
  | applied => exact absurd rfl ho
  | identical => exact ⟨rfl, rfl⟩
  | conflict => exact ⟨rfl, rfl⟩

theorem fixFold_second (original : String) (C : List (Nat × Nat × String))
    (mf : Bool) :
    ∀ (l : List SuggPair) (stA st2 : FixFileState),
      stA.cf.original = original → st2.cf = ⟨original, C, mf⟩ →
      stA.cf.patches ⊆ C → (l.foldl fixStep stA).cf.patches ⊆ C →
      (l.foldl fixStep st2).cf = st2.cf ∧
      (l.foldl fixStep st2).num_fixes = st2.num_fixes := by
  intro l
  induction l with
  | nil => intro stA st2 h1 h2 h3 h4; exact ⟨rfl, rfl⟩
  | cons p t ih =>
    intro stA st2 h1 h2 h3 h4
    simp only [List.foldl_cons] at h4 ⊢
    have hsubA : (fixStep stA p).cf.patches ⊆ C :=
      fun x hx => h4 (fixFold_cf_patches_sub t (fixStep stA p) hx)
    have hcfA : (fixStep stA p).cf = (stA.cf.apply p.1).1 := fixStep_cf stA p
    have horig2 : st2.cf.original = original := by rw [h2]
    have happ2 : ∃ o, st2.cf.apply p.1 = (st2.cf, o) ∧ o ≠ SuggOutcome.applied := by
      apply apply_second st2.cf p.1 stA.cf.patches false false
      · rw [h2]; exact h3
      · rw [horig2, ← h1, ← apply_fst_patches, ← hcfA, h2]
        exact hsubA
    obtain ⟨o, happ, ho⟩ := happ2
    obtain ⟨hcf2, hnum2⟩ := fixStep_second st2 p o happ ho
    have hres := ih (fixStep stA p) (fixStep st2 p)
      (by rw [fixStep_cf_original]; exact h1) (by rw [hcf2]; exact h2)
      (fun x hx => hsubA hx) h4
    exact ⟨hres.1.trans hcf2, hres.2.trans hnum2⟩

theorem applyRepls_all_identical (original : String)
    (patches : List (Nat × Nat × String)) :
    ∀ (rs : List Replacement) (sf sb : Bool),
      (∀ r ∈ rs, classifyRepl original patches r = .identical) →
      applyRepls original patches sf sb rs = (patches, sf, sb) := by
  intro rs
  induction rs with
  | nil => intro sf sb _; rfl
  | cons r t ih =>
    intro sf sb h
    unfold applyRepls
    rw [h r (List.mem_cons_self _ _)]
    exact ih sf sb fun r' hr' => h r' (List.mem_cons_of_mem _ hr')

theorem apply_identical_of_all (cf : CodeFix) (s : Suggestion)
    (h : ∀ r ∈ suggReplacements s,
      classifyRepl cf.original cf.patches r = .identical) :
    cf.apply s = (cf, .identical) := by
  unfold CodeFix.apply
  rw [applyRepls_all_identical cf.original cf.patches (suggReplacements s)
    false false h]
  simp

theorem fixFold_all_identical (code : String) :
    ∀ (l : List SuggPair) (st : FixFileState), st.cf = CodeFix.new code →
      (∀ p ∈ l, ∀ r ∈ suggReplacements p.1,
        classifyRepl code [] r = .identical) →
      (l.foldl fixStep st).cf = st.cf ∧
      (l.foldl fixStep st).num_fixes = st.num_fixes ∧
      (l.foldl fixStep st).errors = st.errors := by
  intro l
  induction l with
  | nil => intro st hst h; exact ⟨rfl, rfl, rfl⟩
  | cons p t ih =>
    intro st hst h
    simp only [List.foldl_cons]
    have happ : st.cf.apply p.1 = (st.cf, .identical) := by
      apply apply_identical_of_all
      intro r hr
      rw [hst]
      exact h p (List.mem_cons_self _ _) r hr
    have hstep : fixStep st p =
        { st with attempted := st.attempted ++ [p.1] } := by
      unfold fixStep
      rw [happ]
    rw [hstep]
    have := ih { st with attempted := st.attempted ++ [p.1] } hst
      fun p' hp' => h p' (List.mem_cons_of_mem _ hp')
    exact this

theorem fixFile_all_identical (code : String) (suggestions : List SuggPair)
    (errors : List String)
    (h : ∀ p ∈ suggestions, ∀ r ∈ suggReplacements p.1,
      classifyRepl code [] r = .identical) :
    (fixFile code suggestions errors).cf = CodeFix.new code ∧
    (fixFile code suggestions errors).num_fixes = 0 ∧
    (fixFile code suggestions errors).errors = errors := by
  unfold fixFile
  exact fixFold_all_identical code suggestions.reverse
    ⟨CodeFix.new code, 0, errors, []⟩ rfl
    fun p hp => h p (List.mem_reverse.mp hp)

/-! ### Structure of `fix_errors` -/

theorem fix_errors_writes_keys (fm : FileMap) :
    ∀ (fsys : String → Option String) (files : List (String × Nat))
      (errors : List String),
      ∀ w ∈ (fix_errors fsys files fm errors).writes, w.1 ∈ imKeys fm := by
  induction fm with
  | nil => intro fsys files errors w hw; simp [fix_errors] at hw
  | cons entry rest ih =>
    intro fsys files errors w hw
    obtain ⟨file, suggestions⟩ := entry
    unfold fix_errors at hw
    cases hr : fsys file with
    | none =>
      rw [hr] at hw
      exact List.mem_cons_of_mem _ (ih _ _ _ w hw)
    | some code =>
      rw [hr] at hw
      dsimp only at hw
      by_cases hm : (fixFile code suggestions errors).cf.modified = true
      · rw [if_pos hm] at hw
        simp only [List.mem_cons] at hw
        rcases hw with hw | hw
        · rw [hw]
          exact List.mem_cons_self _ _
        · exact List.mem_cons_of_mem _ (ih _ _ _ w hw)
      · rw [if_neg hm] at hw
        exact List.mem_cons_of_mem _ (ih _ _ _ w hw)

theorem fix_errors_errors_sub (fm : FileMap) :
    ∀ (fsys : String → Option String) (files : List (String × Nat))
      (errors : List String),
      errors ⊆ (fix_errors fsys files fm errors).errors := by
  induction fm with
  | nil => intro fsys files errors e he; simpa [fix_errors] using he
  | cons entry rest ih =>
    intro fsys files errors e he
    obtain ⟨file, suggestions⟩ := entry
    unfold fix_errors
    cases hr : fsys file with
    | none =>
      exact ih _ _ _ (mem_foldl_isInsert_of_mem _ _ _ he)
    | some code =>
      have hsub : errors ⊆ (fixFile code suggestions errors).errors := by
        unfold fixFile
        exact fixFold_errors_sub suggestions.reverse
          ⟨CodeFix.new code, 0, errors, []⟩
      dsimp only
      by_cases hm : (fixFile code suggestions errors).cf.modified = true
      · rw [if_pos hm]
        exact ih _ _ _ (hsub he)
      · rw [if_neg hm]
        exact ih _ _ _ (hsub he)

/-! ### Structure of one pass of `exec` -/

/-- Units for which `fix_errors` was invoked, in trace order. -/
def fixUnitsOf (tr : List Event) : List BuildUnit :=
  tr.filterMap fun e =>
    match e with
    | .fixUnit u => some u
    | _ => none

/-- File writes recorded in a trace, in order. -/
def writesOf (tr : List Event) : List (String × String) :=
  tr.filterMap fun e =>
    match e with
    | .wrote f c => some (f, c)
    | _ => none

theorem fixUnitsOf_append (a b : List Event) :
    fixUnitsOf (a ++ b) = fixUnitsOf a ++ fixUnitsOf b :=
  List.filterMap_append _ _ _

theorem writesOf_append (a b : List Event) :
    writesOf (a ++ b) = writesOf a ++ writesOf b :=
  List.filterMap_append _ _ _

theorem fixUnitsOf_announce (seen : List BuildUnit) (u : BuildUnit) :
    fixUnitsOf (announceChecking seen u) = [] := by
  unfold announceChecking
  by_cases h : seen.all fun b => b.package_id ≠ u.package_id <;>
    simp [h, fixUnitsOf]

theorem writesOf_announce (seen : List BuildUnit) (u : BuildUnit) :
    writesOf (announceChecking seen u) = [] := by
  unfold announceChecking
  by_cases h : seen.all fun b => b.package_id ≠ u.package_id <;>
    simp [h, writesOf]

theorem fixUnitsOf_printErrors (es : List String) :
    fixUnitsOf (printErrors es) = [] := by
  induction es with
  | nil => rfl
  | cons e t ih => simp [printErrors, fixUnitsOf] at ih ⊢

theorem writesOf_printErrors (es : List String) :
    writesOf (printErrors es) = [] := by
  induction es with
  | nil => rfl
  | cons e t ih => simp [printErrors, writesOf] at ih ⊢

theorem fixUnitsOf_reportFiles (files : List (String × Nat)) :
    fixUnitsOf (reportFiles files) = [] := by
  induction files with
  | nil => rfl
  | cons p t ih => simp [reportFiles, fixUnitsOf] at ih ⊢

theorem writesOf_reportFiles (files : List (String × Nat)) :
    writesOf (reportFiles files) = [] := by
  induction files with
  | nil => rfl
  | cons p t ih => simp [reportFiles, writesOf] at ih ⊢

theorem mem_announceChecking (seen : List BuildUnit) (u : BuildUnit) (e : Event)
    (he : e ∈ announceChecking seen u) : e = .checking u := by
  unfold announceChecking at he
  by_cases h : seen.all fun b => b.package_id ≠ u.package_id
  · rw [if_pos h] at he
    simpa using he
  · rw [if_neg h] at he
    simp at he

theorem mem_printErrors (es : List String) (e : Event)
    (he : e ∈ printErrors es) :
    ∃ s ∈ es, e = .errorPrint (s.trimRight ++ "\n\n") := by
  unfold printErrors at he
  obtain ⟨s, hs, rfl⟩ := List.mem_map.mp he
  exact ⟨s, hs, rfl⟩

theorem mem_reportFiles (files : List (String × Nat)) (e : Event)
    (he : e ∈ reportFiles files) : ∃ p ∈ files, e = .fixedReport p.1 p.2 := by
  unfold reportFiles at he
  obtain ⟨p, hp, rfl⟩ := List.mem_map.mp he
  exact ⟨p, hp, rfl⟩

theorem capStep_lt (env : ExecEnv) (errors : ErrorsMap) (bum : UnitMap)
    (st : ExecState) (h : st.iteration < env.max_iterations) :
    capStep env errors bum st = (st, errors, [], false) := by
  unfold capStep
  rw [if_neg (by omega)]

theorem capStep_ge_some (env : ExecEnv) (errors : ErrorsMap) (bum : UnitMap)
    (st : ExecState) (target : BuildUnit)
    (h : env.max_iterations ≤ st.iteration)
    (hc : st.current_target = some target) :
    capStep env errors bum st =
      ({ st with
          files := []
          seen := target :: st.seen
          current_target := none
          iteration := 0 },
       imShiftRemove errors target,
       announceChecking st.seen target ++ reportFiles st.files ++
         printErrors (match imLookup bum target with
           | some fm => pendingRendered fm ((imLookup errors target).getD [])
           | none => (imLookup errors target).getD []),
       false) := by
  unfold capStep
  rw [if_pos h, hc]

theorem capStep_ge_none (env : ExecEnv) (errors : ErrorsMap) (bum : UnitMap)
    (st : ExecState) (h : env.max_iterations ≤ st.iteration)
    (hc : st.current_target = none) :
    capStep env errors bum st = (st, errors, [], true) := by
  unfold capStep
  rw [if_pos h, hc]

theorem unitLoop_cons_seen (bu : BuildUnit) (fm : FileMap)
    (rest : List (BuildUnit × FileMap)) (acc : LoopAcc) (h : bu ∈ acc.seen) :
    unitLoop ((bu, fm) :: rest) acc = unitLoop rest acc := by
  conv_lhs => unfold unitLoop
  rw [if_pos h]

theorem unitLoop_cons_empty (bu : BuildUnit) (fm : FileMap)
    (rest : List (BuildUnit × FileMap)) (acc : LoopAcc) (h1 : bu ∉ acc.seen)
    (h2 : acc.current_target = none) (h3 : fm = []) :
    unitLoop ((bu, fm) :: rest) acc =
      unitLoop rest
        { acc with
            errors := imShiftRemove (imOrInsert acc.errors bu []) bu
            seen := bu :: acc.seen
            trace := acc.trace ++ (announceChecking acc.seen bu ++
              printErrors ((imLookup (imOrInsert acc.errors bu []) bu).getD [])) } := by
  conv_lhs => unfold unitLoop
  rw [if_neg h1]
  dsimp only
  rw [if_pos ⟨h2, h3⟩]

theorem unitLoop_cons_fix (bu : BuildUnit) (fm : FileMap)
    (rest : List (BuildUnit × FileMap)) (acc : LoopAcc) (h1 : bu ∉ acc.seen)
    (h2 : fm ≠ [])
    (h3 : acc.current_target = none ∨ acc.current_target = some bu) :
    unitLoop ((bu, fm) :: rest) acc =
      (let errors := imOrInsert acc.errors bu []
       let selEvents : List Event :=
         if acc.current_target = none then [.selected bu] else []
       let r := fix_errors acc.fsys acc.files fm ((imLookup errors bu).getD [])
       let acc' : LoopAcc :=
         { acc with
             errors := imUpdate errors bu fun _ => r.errors
             files := r.files
             fsys := r.fsys
             current_target := some bu
             trace := acc.trace ++ selEvents ++ [.fixUnit bu] ++
               r.writes.map fun w => Event.wrote w.1 w.2 }
       if r.made_changes then { acc' with made_changes := true }
       else unitLoop rest acc') := by
  conv_lhs => unfold unitLoop
  rw [if_neg h1]
  dsimp only
  rw [if_neg (fun hc => h2 hc.2), if_pos ⟨h2, h3⟩]

theorem unitLoop_cons_skip (bu : BuildUnit) (fm : FileMap)
    (rest : List (BuildUnit × FileMap)) (acc : LoopAcc) (h1 : bu ∉ acc.seen)
    (hno : ¬(acc.current_target = none ∧ fm = []))
    (hno2 : ¬(fm ≠ [] ∧
      (acc.current_target = none ∨ acc.current_target = some bu))) :
    unitLoop ((bu, fm) :: rest) acc =
      unitLoop rest { acc with errors := imOrInsert acc.errors bu [] } := by
  conv_lhs => unfold unitLoop
  rw [if_neg h1]
  dsimp only
  rw [if_neg hno, if_neg hno2]

theorem unitLoop_some (entries : List (BuildUnit × FileMap)) :
    ∀ (acc : LoopAcc) (u : BuildUnit), acc.current_target = some u →
      (unitLoop entries acc).current_target = some u ∧
      (unitLoop entries acc).seen = acc.seen := by
  induction entries with
  | nil => intro acc u h; exact ⟨h, rfl⟩
  | cons entry rest ih =>
    intro acc u h
    obtain ⟨bu, fm⟩ := entry
    by_cases h1 : bu ∈ acc.seen
    · rw [unitLoop_cons_seen bu fm rest acc h1]
      exact ih acc u h
    · by_cases h2 : fm = []
      · rw [unitLoop_cons_skip bu fm rest acc h1 (by simp [h]) (by simp [h2])]
        exact ih _ u h
      · by_cases h3 : u = bu
        · subst h3
          rw [unitLoop_cons_fix u fm rest acc h1 h2 (Or.inr h)]
          dsimp only
          by_cases hm : (fix_errors acc.fsys acc.files fm
              ((imLookup (imOrInsert acc.errors u []) u).getD [])).made_changes = true
          · rw [if_pos hm]
            exact ⟨rfl, rfl⟩
          · rw [if_neg hm]
            exact ih _ u rfl
        · rw [unitLoop_cons_skip bu fm rest acc h1 (by simp [h]) (by simp [h, h2, h3])]
          exact ih _ u h

theorem unitLoop_some_frozen (entries : List (BuildUnit × FileMap)) :
    ∀ (acc : LoopAcc) (u : BuildUnit), acc.current_target = some u →
      u ∉ imKeys entries →
      (unitLoop entries acc).trace = acc.trace ∧
      (unitLoop entries acc).made_changes = acc.made_changes := by
  induction entries with
  | nil => intro acc u h hk; exact ⟨rfl, rfl⟩
  | cons entry rest ih =>
    intro acc u h hk
    obtain ⟨bu, fm⟩ := entry
    have hk' : u ∉ imKeys rest := fun hx => hk (List.mem_cons_of_mem _ hx)
    have hbu : u ≠ bu := by
      intro he
      exact hk (he ▸ List.mem_cons_self _ _)
    by_cases h1 : bu ∈ acc.seen
    · rw [unitLoop_cons_seen bu fm rest acc h1]
      exact ih acc u h hk'
    · by_cases h2 : fm = []
      · rw [unitLoop_cons_skip bu fm rest acc h1 (by simp [h]) (by simp [h2])]
        exact ih _ u h hk'
      · rw [unitLoop_cons_skip bu fm rest acc h1 (by simp [h]) (by simp [h, h2, hbu])]
        exact ih _ u h hk'

theorem mem_empty_tail {e : Event} {seen : List BuildUnit} {bu : BuildUnit}
    {es : List String}
    (he : e ∈ announceChecking seen bu ++ printErrors es) :
    e = .checking bu ∨ ∃ s, e = .errorPrint s := by
  rcases List.mem_append.mp he with h | h
  · exact Or.inl (mem_announceChecking _ _ _ h)
  · obtain ⟨s, _, rfl⟩ := mem_printErrors _ _ h
    exact Or.inr ⟨_, rfl⟩

theorem unitLoop_seen_mono (entries : List (BuildUnit × FileMap)) :
    ∀ (acc : LoopAcc), acc.seen ⊆ (unitLoop entries acc).seen := by
  induction entries with
  | nil => intro acc x hx; exact hx
  | cons entry rest ih =>
    intro acc x hx
    obtain ⟨bu, fm⟩ := entry
    by_cases h1 : bu ∈ acc.seen
    · rw [unitLoop_cons_seen bu fm rest acc h1]
      exact ih acc hx
    · by_cases hc : acc.current_target = none
      · by_cases h2 : fm = []
        · rw [unitLoop_cons_empty bu fm rest acc h1 hc h2]
          exact ih _ (List.mem_cons_of_mem _ hx)
        · rw [unitLoop_cons_fix bu fm rest acc h1 h2 (Or.inl hc)]
          dsimp only
          by_cases hm : (fix_errors acc.fsys acc.files fm
              ((imLookup (imOrInsert acc.errors bu []) bu).getD [])).made_changes = true
          · rw [if_pos hm]
            exact hx
          · rw [if_neg hm]
            exact ih _ hx
      · by_cases h3 : fm ≠ [] ∧ acc.current_target = some bu
        · rw [unitLoop_cons_fix bu fm rest acc h1 h3.1 (Or.inr h3.2)]
          dsimp only
          by_cases hm : (fix_errors acc.fsys acc.files fm
              ((imLookup (imOrInsert acc.errors bu []) bu).getD [])).made_changes = true
          · rw [if_pos hm]
            exact hx
          · rw [if_neg hm]
            exact ih _ hx
        · rw [unitLoop_cons_skip bu fm rest acc h1 (fun hcc => hc hcc.1)
            (fun hcc => h3 ⟨hcc.1, hcc.2.resolve_left hc⟩)]
          exact ih _ hx

theorem unitLoop_seen_shape (entries : List (BuildUnit × FileMap)) :
    ∀ (acc : LoopAcc) (x : BuildUnit), x ∈ (unitLoop entries acc).seen →
      x ∈ acc.seen ∨ x ∈ imKeys entries := by
  induction entries with
  | nil => intro acc x hx; exact Or.inl hx
  | cons entry rest ih =>
    intro acc x hx
    obtain ⟨bu, fm⟩ := entry
    have hlift : x ∈ imKeys rest → x ∈ imKeys ((bu, fm) :: rest) :=
      fun h => List.mem_cons_of_mem _ h
    by_cases h1 : bu ∈ acc.seen
    · rw [unitLoop_cons_seen bu fm rest acc h1] at hx
      rcases ih acc x hx with h | h
      · exact Or.inl h
      · exact Or.inr (hlift h)
    · by_cases hc : acc.current_target = none
      · by_cases h2 : fm = []
        · rw [unitLoop_cons_empty bu fm rest acc h1 hc h2] at hx
          rcases ih _ x hx with h | h
          · rcases List.mem_cons.mp h with h | h
            · exact Or.inr (h ▸ List.mem_cons_self _ _)
            · exact Or.inl h
          · exact Or.inr (hlift h)
        · rw [unitLoop_cons_fix bu fm rest acc h1 h2 (Or.inl hc)] at hx
          dsimp only at hx
          by_cases hm : (fix_errors acc.fsys acc.files fm
              ((imLookup (imOrInsert acc.errors bu []) bu).getD [])).made_changes = true
          · rw [if_pos hm] at hx
            exact Or.inl hx
          · rw [if_neg hm] at hx
            rcases ih _ x hx with h | h
            · exact Or.inl h
            · exact Or.inr (hlift h)
      · by_cases h3 : fm ≠ [] ∧ acc.current_target = some bu
        · rw [unitLoop_cons_fix bu fm rest acc h1 h3.1 (Or.inr h3.2)] at hx
          dsimp only at hx
          by_cases hm : (fix_errors acc.fsys acc.files fm
              ((imLookup (imOrInsert acc.errors bu []) bu).getD [])).made_changes = true
          · rw [if_pos hm] at hx
            exact Or.inl hx
          · rw [if_neg hm] at hx
            rcases ih _ x hx with h | h
            · exact Or.inl h
            · exact Or.inr (hlift h)
        · rw [unitLoop_cons_skip bu fm rest acc h1 (fun hcc => hc hcc.1)
            (fun hcc => h3 ⟨hcc.1, hcc.2.resolve_left hc⟩)] at hx
          rcases ih _ x hx with h | h
          · exact Or.inl h
          · exact Or.inr (hlift h)

theorem unitLoop_current_shape (entries : List (BuildUnit × FileMap)) :
    ∀ (acc : LoopAcc),
      (unitLoop entries acc).current_target = acc.current_target ∨
      ∃ v, v ∈ imKeys entries ∧ v ∉ acc.seen ∧
        (unitLoop entries acc).current_target = some v := by
  induction entries with
  | nil => intro acc; exact Or.inl rfl
  | cons entry rest ih =>
    intro acc
    obtain ⟨bu, fm⟩ := entry
    have hlift : ∀ v, v ∈ imKeys rest → v ∈ imKeys ((bu, fm) :: rest) :=
      fun v h => List.mem_cons_of_mem _ h
    by_cases h1 : bu ∈ acc.seen
    · rw [unitLoop_cons_seen bu fm rest acc h1]
      rcases ih acc with h | ⟨v, hv1, hv2, hv3⟩
      · exact Or.inl h
      · exact Or.inr ⟨v, hlift v hv1, hv2, hv3⟩
    · by_cases hc : acc.current_target = none
      · by_cases h2 : fm = []
        · rw [unitLoop_cons_empty bu fm rest acc h1 hc h2]
          rcases ih _ with h | ⟨v, hv1, hv2, hv3⟩
          · exact Or.inl h
          · refine Or.inr ⟨v, hlift v hv1, fun hv => hv2 (List.mem_cons_of_mem _ hv), hv3⟩
        · rw [unitLoop_cons_fix bu fm rest acc h1 h2 (Or.inl hc)]
          dsimp only
          by_cases hm : (fix_errors acc.fsys acc.files fm
              ((imLookup (imOrInsert acc.errors bu []) bu).getD [])).made_changes = true
          · rw [if_pos hm]
            exact Or.inr ⟨bu, List.mem_cons_self _ _, h1, rfl⟩
          · rw [if_neg hm]
            refine Or.inr ⟨bu, List.mem_cons_self _ _, h1,
              (unitLoop_some rest _ bu ?_).1⟩
            rfl
      · by_cases h3 : fm ≠ [] ∧ acc.current_target = some bu
        · rw [unitLoop_cons_fix bu fm rest acc h1 h3.1 (Or.inr h3.2)]
          dsimp only
          by_cases hm : (fix_errors acc.fsys acc.files fm
              ((imLookup (imOrInsert acc.errors bu []) bu).getD [])).made_changes = true
          · rw [if_pos hm]
            exact Or.inr ⟨bu, List.mem_cons_self _ _, h1, rfl⟩
          · rw [if_neg hm]
            refine Or.inr ⟨bu, List.mem_cons_self _ _, h1,
              (unitLoop_some rest _ bu ?_).1⟩
            rfl
        · rw [unitLoop_cons_skip bu fm rest acc h1 (fun hcc => hc hcc.1)
            (fun hcc => h3 ⟨hcc.1, hcc.2.resolve_left hc⟩)]
          rcases ih _ with h | ⟨v, hv1, hv2, hv3⟩
          · exact Or.inl h
          · exact Or.inr ⟨v, hlift v hv1, hv2, hv3⟩

theorem unitLoop_trace_shape (entries : List (BuildUnit × FileMap)) :
    ∀ (acc : LoopAcc) (e : Event), e ∈ (unitLoop entries acc).trace →
      e ∈ acc.trace ∨
      (∃ s, e = Event.errorPrint s) ∨
      (∃ f c, e = Event.wrote f c) ∨
      (∃ v, v ∈ imKeys entries ∧ v ∉ acc.seen ∧
        (e = Event.checking v ∨ e = Event.selected v ∨ e = Event.fixUnit v)) := by
  induction entries with
  | nil => intro acc e he; exact Or.inl he
  | cons entry rest ih =>
    intro acc e he
    obtain ⟨bu, fm⟩ := entry
    have hlift : ∀ v, v ∈ imKeys rest → v ∈ imKeys ((bu, fm) :: rest) :=
      fun v h => List.mem_cons_of_mem _ h
    by_cases h1 : bu ∈ acc.seen
    · rw [unitLoop_cons_seen bu fm rest acc h1] at he
      rcases ih acc e he with h | h | h | ⟨v, hv1, hv2, hv3⟩
      · exact Or.inl h
      · exact Or.inr (Or.inl h)
      · exact Or.inr (Or.inr (Or.inl h))
      · exact Or.inr (Or.inr (Or.inr ⟨v, hlift v hv1, hv2, hv3⟩))
    · have hfixtail : ∀ (sel : List Event) (ws : List (String × String)),
          (∀ x ∈ sel, x = Event.selected bu) →
          e ∈ acc.trace ++ sel ++ [Event.fixUnit bu] ++
            ws.map (fun w => Event.wrote w.1 w.2) →
          e ∈ acc.trace ∨ (∃ f c, e = Event.wrote f c) ∨
          (e = Event.selected bu ∨ e = Event.fixUnit bu) := by
        intro sel ws hsel hm
        rcases List.mem_append.mp hm with hm | hm
        · rcases List.mem_append.mp hm with hm | hm
          · rcases List.mem_append.mp hm with hm | hm
            · exact Or.inl hm
            · exact Or.inr (Or.inr (Or.inl (hsel e hm)))
          · simp only [List.mem_singleton] at hm
            exact Or.inr (Or.inr (Or.inr hm))
        · obtain ⟨w, _, rfl⟩ := List.mem_map.mp hm
          exact Or.inr (Or.inl ⟨w.1, w.2, rfl⟩)
      by_cases hc : acc.current_target = none
      · by_cases h2 : fm = []
        · rw [unitLoop_cons_empty bu fm rest acc h1 hc h2] at he
          rcases ih _ e he with h | h | h | ⟨v, hv1, hv2, hv3⟩
          · rcases List.mem_append.mp h with h | h
            · exact Or.inl h
            · rcases mem_empty_tail h with h | ⟨s, rfl⟩
              · exact Or.inr (Or.inr (Or.inr
                  ⟨bu, List.mem_cons_self _ _, h1, Or.inl h⟩))
              · exact Or.inr (Or.inl ⟨s, rfl⟩)
          · exact Or.inr (Or.inl h)
          · exact Or.inr (Or.inr (Or.inl h))
          · exact Or.inr (Or.inr (Or.inr ⟨v, hlift v hv1,
              fun hv => hv2 (List.mem_cons_of_mem _ hv), hv3⟩))
        · rw [unitLoop_cons_fix bu fm rest acc h1 h2 (Or.inl hc)] at he
          dsimp only at he
          by_cases hm : (fix_errors acc.fsys acc.files fm
              ((imLookup (imOrInsert acc.errors bu []) bu).getD [])).made_changes = true
          · rw [if_pos hm] at he
            rcases hfixtail _ _ (fun x hx => by
                rw [if_pos hc] at hx
                simpa using hx) he with h | h | h
            · exact Or.inl h
            · exact Or.inr (Or.inr (Or.inl h))
            · rcases h with h | h
              · exact Or.inr (Or.inr (Or.inr
                  ⟨bu, List.mem_cons_self _ _, h1, Or.inr (Or.inl h)⟩))
              · exact Or.inr (Or.inr (Or.inr
                  ⟨bu, List.mem_cons_self _ _, h1, Or.inr (Or.inr h)⟩))
          · rw [if_neg hm] at he
            rcases ih _ e he with h | h | h | ⟨v, hv1, hv2, hv3⟩
            · rcases hfixtail _ _ (fun x hx => by
                  rw [if_pos hc] at hx
                  simpa using hx) h with h | h | h
              · exact Or.inl h
              · exact Or.inr (Or.inr (Or.inl h))
              · rcases h with h | h
                · exact Or.inr (Or.inr (Or.inr
                    ⟨bu, List.mem_cons_self _ _, h1, Or.inr (Or.inl h)⟩))
                · exact Or.inr (Or.inr (Or.inr
                    ⟨bu, List.mem_cons_self _ _, h1, Or.inr (Or.inr h)⟩))
            · exact Or.inr (Or.inl h)
            · exact Or.inr (Or.inr (Or.inl h))
            · exact Or.inr (Or.inr (Or.inr ⟨v, hlift v hv1, hv2, hv3⟩))
      · by_cases h3 : fm ≠ [] ∧ acc.current_target = some bu
        · rw [unitLoop_cons_fix bu fm rest acc h1 h3.1 (Or.inr h3.2)] at he
          dsimp only at he
          by_cases hm : (fix_errors acc.fsys acc.files fm
              ((imLookup (imOrInsert acc.errors bu []) bu).getD [])).made_changes = true
          · rw [if_pos hm] at he
            rcases hfixtail _ _ (fun x hx => by
                rw [if_neg hc] at hx
                simp at hx) he with h | h | h
            · exact Or.inl h
            · exact Or.inr (Or.inr (Or.inl h))
            · rcases h with h | h
              · exact Or.inr (Or.inr (Or.inr
                  ⟨bu, List.mem_cons_self _ _, h1, Or.inr (Or.inl h)⟩))
              · exact Or.inr (Or.inr (Or.inr
                  ⟨bu, List.mem_cons_self _ _, h1, Or.inr (Or.inr h)⟩))
          · rw [if_neg hm] at he
            rcases ih _ e he with h | h | h | ⟨v, hv1, hv2, hv3⟩
            · rcases hfixtail _ _ (fun x hx => by
                  rw [if_neg hc] at hx
                  simp at hx) h with h | h | h
              · exact Or.inl h
              · exact Or.inr (Or.inr (Or.inl h))
              · rcases h with h | h
                · exact Or.inr (Or.inr (Or.inr
                    ⟨bu, List.mem_cons_self _ _, h1, Or.inr (Or.inl h)⟩))
                · exact Or.inr (Or.inr (Or.inr
                    ⟨bu, List.mem_cons_self _ _, h1, Or.inr (Or.inr h)⟩))
            · exact Or.inr (Or.inl h)
            · exact Or.inr (Or.inr (Or.inl h))
            · exact Or.inr (Or.inr (Or.inr ⟨v, hlift v hv1, hv2, hv3⟩))
        · rw [unitLoop_cons_skip bu fm rest acc h1 (fun hcc => hc hcc.1)
            (fun hcc => h3 ⟨hcc.1, hcc.2.resolve_left hc⟩)] at he
          rcases ih _ e he with h | h | h | ⟨v, hv1, hv2, hv3⟩
          · exact Or.inl h
          · exact Or.inr (Or.inl h)
          · exact Or.inr (Or.inr (Or.inl h))
          · exact Or.inr (Or.inr (Or.inr ⟨v, hlift v hv1, hv2, hv3⟩))

theorem unitLoop_none (entries : List (BuildUnit × FileMap)) :
    ∀ (acc : LoopAcc), acc.current_target = none →
      ∃ A : List BuildUnit,
        (∀ a ∈ A, a ∈ imKeys entries ∧ a ∉ acc.seen) ∧ A.Nodup ∧
        (unitLoop entries acc).seen = A ++ acc.seen ∧
        (((unitLoop entries acc).current_target = none ∧
          (unitLoop entries acc).made_changes = acc.made_changes) ∨
         (∃ v, (unitLoop entries acc).current_target = some v ∧
           v ∈ imKeys entries ∧ v ∉ A ∧ v ∉ acc.seen)) := by
  induction entries with
  | nil =>
    intro acc hc
    exact ⟨[], by simp, List.nodup_nil, rfl, Or.inl ⟨hc, rfl⟩⟩
  | cons entry rest ih =>
    intro acc hc
    obtain ⟨bu, fm⟩ := entry
    have hlift : ∀ v, v ∈ imKeys rest → v ∈ imKeys ((bu, fm) :: rest) :=
      fun v h => List.mem_cons_of_mem _ h
    by_cases h1 : bu ∈ acc.seen
    · rw [unitLoop_cons_seen bu fm rest acc h1]
      obtain ⟨A, hA, hnd, hseen, hcur⟩ := ih acc hc
      refine ⟨A, fun a ha => ⟨hlift a (hA a ha).1, (hA a ha).2⟩, hnd, hseen, ?_⟩
      rcases hcur with h | ⟨v, hv1, hv2, hv3, hv4⟩
      · exact Or.inl h
      · exact Or.inr ⟨v, hv1, hlift v hv2, hv3, hv4⟩
    · by_cases h2 : fm = []
      · rw [unitLoop_cons_empty bu fm rest acc h1 hc h2]
        generalize hacc :
          ({ acc with
              errors := imShiftRemove (imOrInsert acc.errors bu []) bu
              seen := bu :: acc.seen
              trace := acc.trace ++ (announceChecking acc.seen bu ++
                printErrors ((imLookup (imOrInsert acc.errors bu []) bu).getD []))
            } : LoopAcc) = acc2
        have hseen2 : acc2.seen = bu :: acc.seen := by rw [← hacc]
        have hcur2 : acc2.current_target = none := by rw [← hacc]; exact hc
        have hmade2 : acc2.made_changes = acc.made_changes := by rw [← hacc]
        obtain ⟨A, hA, hnd, hseen, hcur⟩ := ih acc2 hcur2
        rw [hseen2] at hA
        have hAseen : ∀ a ∈ A, a ∉ acc.seen ∧ a ≠ bu := by
          intro a ha
          have hx := (hA a ha).2
          simp only [List.mem_cons] at hx
          exact ⟨fun hy => hx (Or.inr hy), fun hy => hx (Or.inl hy)⟩
        refine ⟨A ++ [bu], ?_, ?_, ?_, ?_⟩
        · intro a ha
          rcases List.mem_append.mp ha with ha | ha
          · exact ⟨hlift a (hA a ha).1, (hAseen a ha).1⟩
          · simp only [List.mem_singleton] at ha
            subst ha
            exact ⟨List.mem_cons_self _ _, h1⟩
        · rw [List.nodup_append]
          exact ⟨hnd, List.nodup_singleton _,
            fun a ha hb => (hAseen a ha).2 (by simpa using hb)⟩
        · rw [hseen, hseen2]
          simp
        · rcases hcur with h | ⟨v, hv1, hv2, hv3, hv4⟩
          · exact Or.inl ⟨h.1, h.2.trans hmade2⟩
          · rw [hseen2] at hv4
            simp only [List.mem_cons] at hv4
            refine Or.inr ⟨v, hv1, hlift v hv2, ?_, fun hx => hv4 (Or.inr hx)⟩
            intro hx
            rcases List.mem_append.mp hx with hx | hx
            · exact hv3 hx
            · simp only [List.mem_singleton] at hx
              exact hv4 (Or.inl hx)
      · rw [unitLoop_cons_fix bu fm rest acc h1 h2 (Or.inl hc)]
        dsimp only
        by_cases hm : (fix_errors acc.fsys acc.files fm
            ((imLookup (imOrInsert acc.errors bu []) bu).getD [])).made_changes = true
        · rw [if_pos hm]
          exact ⟨[], by simp, List.nodup_nil, rfl,
            Or.inr ⟨bu, rfl, List.mem_cons_self _ _, by simp, h1⟩⟩
        · rw [if_neg hm]
          have key : ∀ acc2 : LoopAcc, acc2.current_target = some bu →
              acc2.seen = acc.seen →
              ∃ A : List BuildUnit,
                (∀ a ∈ A, a ∈ imKeys ((bu, fm) :: rest) ∧ a ∉ acc.seen) ∧
                A.Nodup ∧
                (unitLoop rest acc2).seen = A ++ acc.seen ∧
                (((unitLoop rest acc2).current_target = none ∧
                  (unitLoop rest acc2).made_changes = acc.made_changes) ∨
                 (∃ v, (unitLoop rest acc2).current_target = some v ∧
                   v ∈ imKeys ((bu, fm) :: rest) ∧ v ∉ A ∧
                   v ∉ acc.seen)) := by
            intro acc2 hcur2 hseen2
            obtain ⟨hc2, hs2⟩ := unitLoop_some rest acc2 bu hcur2
            refine ⟨[], by simp, List.nodup_nil, by rw [hs2, hseen2]; rfl, ?_⟩
            exact Or.inr ⟨bu, hc2, List.mem_cons_self _ _, by simp, h1⟩
          refine key _ ?_ ?_ <;> rfl

theorem fixUnitsOf_wroteMap (ws : List (String × String)) :
    fixUnitsOf (ws.map fun w => Event.wrote w.1 w.2) = [] := by
  induction ws with
  | nil => rfl
  | cons w t ih => simp [fixUnitsOf] at ih ⊢

theorem writesOf_wroteMap (ws : List (String × String)) :
    writesOf (ws.map fun w => Event.wrote w.1 w.2) = ws := by
  induction ws with
  | nil => rfl
  | cons w t ih =>
    simp only [List.map_cons, writesOf, List.filterMap_cons] at ih ⊢
    rw [ih]

theorem fixUnitsOf_selEvents (c : Prop) [Decidable c] (bu : BuildUnit) :
    fixUnitsOf (if c then [Event.selected bu] else []) = [] := by
  by_cases h : c <;> simp [h, fixUnitsOf]

theorem writesOf_selEvents (c : Prop) [Decidable c] (bu : BuildUnit) :
    writesOf (if c then [Event.selected bu] else []) = [] := by
  by_cases h : c <;> simp [h, writesOf]

theorem unitLoop_c2 (entries : List (BuildUnit × FileMap)) :
    ∀ (acc : LoopAcc), (imKeys entries).Nodup →
      fixUnitsOf acc.trace = [] → writesOf acc.trace = [] →
      (fixUnitsOf (unitLoop entries acc).trace = [] ∧
       writesOf (unitLoop entries acc).trace = []) ∨
      (∃ u fmu, (u, fmu) ∈ entries ∧
        fixUnitsOf (unitLoop entries acc).trace = [u] ∧
        (acc.current_target = some u ∨
          Event.selected u ∈ (unitLoop entries acc).trace) ∧
        ∀ w ∈ writesOf (unitLoop entries acc).trace, w.1 ∈ imKeys fmu) := by
  induction entries with
  | nil => intro acc _ hf hw; exact Or.inl ⟨hf, hw⟩
  | cons entry rest ih =>
    intro acc hnd hf hw
    obtain ⟨bu, fm⟩ := entry
    have hnd' : (imKeys rest).Nodup := by
      simp only [imKeys, List.map_cons, List.nodup_cons] at hnd
      exact hnd.2
    have hbk : bu ∉ imKeys rest := by
      simp only [imKeys, List.map_cons, List.nodup_cons] at hnd
      exact hnd.1
    by_cases h1 : bu ∈ acc.seen
    · rw [unitLoop_cons_seen bu fm rest acc h1]
      rcases ih acc hnd' hf hw with h | ⟨u, fmu, hmem, hfix, hcur, hwr⟩
      · exact Or.inl h
      · exact Or.inr ⟨u, fmu, List.mem_cons_of_mem _ hmem, hfix, hcur, hwr⟩
    · by_cases hfixb : fm ≠ [] ∧
          (acc.current_target = none ∨ acc.current_target = some bu)
      · rw [unitLoop_cons_fix bu fm rest acc h1 hfixb.1 hfixb.2]
        dsimp only
        generalize hr : fix_errors acc.fsys acc.files fm
          ((imLookup (imOrInsert acc.errors bu []) bu).getD []) = r
        have htail_fix : fixUnitsOf ((acc.trace ++
            (if acc.current_target = none then [Event.selected bu] else [])) ++
            [Event.fixUnit bu] ++ r.writes.map fun w => Event.wrote w.1 w.2) =
            [bu] := by
          simp only [fixUnitsOf_append, hf, fixUnitsOf_selEvents,
            fixUnitsOf_wroteMap]
          simp [fixUnitsOf]
        have htail_w : writesOf ((acc.trace ++
            (if acc.current_target = none then [Event.selected bu] else [])) ++
            [Event.fixUnit bu] ++ r.writes.map fun w => Event.wrote w.1 w.2) =
            r.writes := by
          simp only [writesOf_append, hw, writesOf_selEvents, writesOf_wroteMap]
          simp [writesOf]
        have hwkeys : ∀ w ∈ r.writes, w.1 ∈ imKeys fm := by
          intro w hw2
          rw [← hr] at hw2
          exact fix_errors_writes_keys fm acc.fsys acc.files _ w hw2
        have hsel : acc.current_target = some bu ∨
            Event.selected bu ∈ ((acc.trace ++
              (if acc.current_target = none then [Event.selected bu] else [])) ++
              [Event.fixUnit bu] ++
              r.writes.map fun w => Event.wrote w.1 w.2) := by
          rcases hfixb.2 with hc | hc
          · right
            rw [if_pos hc]
            simp
          · exact Or.inl hc
        by_cases hm : r.made_changes = true
        · rw [if_pos hm]
          dsimp only
          refine Or.inr ⟨bu, fm, List.mem_cons_self _ _, htail_fix, hsel, ?_⟩
          rw [htail_w]
          exact hwkeys
        · rw [if_neg hm]
          obtain ⟨htr, -⟩ := unitLoop_some_frozen rest
            { acc with
                errors := imUpdate (imOrInsert acc.errors bu []) bu fun _ => r.errors
                files := r.files
                fsys := r.fsys
                current_target := some bu
                trace := acc.trace ++
                  (if acc.current_target = none then [Event.selected bu] else []) ++
                  [Event.fixUnit bu] ++
                  r.writes.map fun w => Event.wrote w.1 w.2 }
            bu rfl hbk
          rw [htr]
          dsimp only
          refine Or.inr ⟨bu, fm, List.mem_cons_self _ _, htail_fix, hsel, ?_⟩
          rw [htail_w]
          exact hwkeys
      · by_cases hemp : acc.current_target = none ∧ fm = []
        · rw [unitLoop_cons_empty bu fm rest acc h1 hemp.1 hemp.2]
          have hf2 : fixUnitsOf (acc.trace ++ (announceChecking acc.seen bu ++
              printErrors ((imLookup (imOrInsert acc.errors bu []) bu).getD []))) =
              [] := by
            simp only [fixUnitsOf_append, hf, fixUnitsOf_announce,
              fixUnitsOf_printErrors]
            rfl
          have hw2 : writesOf (acc.trace ++ (announceChecking acc.seen bu ++
              printErrors ((imLookup (imOrInsert acc.errors bu []) bu).getD []))) =
              [] := by
            simp only [writesOf_append, hw, writesOf_announce,
              writesOf_printErrors]
            rfl
          rcases ih
            { acc with
                errors := imShiftRemove (imOrInsert acc.errors bu []) bu
                seen := bu :: acc.seen
                trace := acc.trace ++ (announceChecking acc.seen bu ++
                  printErrors ((imLookup (imOrInsert acc.errors bu []) bu).getD [])) }
            hnd' hf2 hw2 with h | ⟨u, fmu, hmem, hfix, hcur, hwr⟩
          · exact Or.inl h
          · exact Or.inr ⟨u, fmu, List.mem_cons_of_mem _ hmem, hfix, hcur, hwr⟩
        · rw [unitLoop_cons_skip bu fm rest acc h1 hemp hfixb]
          rcases ih { acc with errors := imOrInsert acc.errors bu [] }
            hnd' hf hw with h | ⟨u, fmu, hmem, hfix, hcur, hwr⟩
          · exact Or.inl h
          · exact Or.inr ⟨u, fmu, List.mem_cons_of_mem _ hmem, hfix, hcur, hwr⟩

theorem mem_finalize_trace {e : Event} {seen : List BuildUnit}
    {target : BuildUnit} {files : List (String × Nat)} {es : List String}
    (he : e ∈ announceChecking seen target ++ reportFiles files ++
      printErrors es) :
    e = .checking target ∨ (∃ f n, e = .fixedReport f n) ∨
    ∃ s, e = .errorPrint s := by
  rcases List.mem_append.mp he with h | h
  · rcases List.mem_append.mp h with h | h
    · exact Or.inl (mem_announceChecking _ _ _ h)
    · obtain ⟨p, _, rfl⟩ := mem_reportFiles _ _ h
      exact Or.inr (Or.inl ⟨p.1, p.2, rfl⟩)
  · obtain ⟨s, _, rfl⟩ := mem_printErrors _ _ h
    exact Or.inr (Or.inr ⟨_, rfl⟩)

theorem execPass_c1 (env : ExecEnv) (messages : List CheckOutput)
    (st : ExecState) (u : BuildUnit) (hu : u ∈ st.seen) :
    u ∈ (execPass env messages st).1.seen ∧
    Event.selected u ∉ (execPass env messages st).2.1 ∧
    Event.fixUnit u ∉ (execPass env messages st).2.1 := by
  unfold execPass
  rcases hcol : collect_errors env.collectEnv messages st.seen with ⟨errors0, bum⟩
  dsimp only
  have hloop : ∀ (errs : ErrorsMap) (st1 : ExecState), u ∈ st1.seen →
      u ∈ (unitLoop bum ⟨errs, st1.files, st1.fsys, st1.current_target,
        st1.seen, false, []⟩).seen ∧
      (∀ e, e ∈ (unitLoop bum ⟨errs, st1.files, st1.fsys, st1.current_target,
        st1.seen, false, []⟩).trace →
        e ≠ Event.selected u ∧ e ≠ Event.fixUnit u) := by
    intro errs st1 hu1
    constructor
    · exact unitLoop_seen_mono bum _ hu1
    · intro e he
      rcases unitLoop_trace_shape bum _ e he with h | ⟨s, rfl⟩ | ⟨f, c, rfl⟩ |
          ⟨v, hv1, hv2, hv3⟩
      · simp at h
      · exact ⟨by simp, by simp⟩
      · exact ⟨by simp, by simp⟩
      · rcases hv3 with rfl | rfl | rfl
        · exact ⟨by simp, by simp⟩
        · refine ⟨?_, by simp⟩
          intro he2
          simp only [Event.selected.injEq] at he2
          exact hv2 (he2 ▸ hu1)
        · refine ⟨by simp, ?_⟩
          intro he2
          simp only [Event.fixUnit.injEq] at he2
          exact hv2 (he2 ▸ hu1)
  by_cases hge : env.max_iterations ≤ st.iteration
  · cases hcur : st.current_target with
    | none =>
      rw [capStep_ge_none env errors0 bum st hge hcur]
      exact ⟨hu, by simp, by simp⟩
    | some target =>
      rw [capStep_ge_some env errors0 bum st target hge hcur]
      dsimp only
      rw [if_neg (by simp)]
      have hu1 : u ∈ target :: st.seen := List.mem_cons_of_mem _ hu
      obtain ⟨hseen2, htr2⟩ := hloop (imShiftRemove errors0 target)
        { st with
          files := []
          seen := target :: st.seen
          current_target := none
          iteration := 0 } hu1
      dsimp only at hseen2 htr2
      have hcap_tr : ∀ e, e ∈ announceChecking st.seen target ++
          reportFiles st.files ++ printErrors
            (match imLookup bum target with
             | some fm => pendingRendered fm ((imLookup errors0 target).getD [])
             | none => (imLookup errors0 target).getD []) →
          e ≠ Event.selected u ∧ e ≠ Event.fixUnit u := by
        intro e he
        rcases mem_finalize_trace he with rfl | ⟨f, n, rfl⟩ | ⟨s, rfl⟩ <;>
          exact ⟨by simp, by simp⟩
      by_cases hmade : (unitLoop bum ⟨imShiftRemove errors0 target, [], st.fsys,
          none, target :: st.seen, false, []⟩).made_changes = true
      · rw [if_pos hmade]
        refine ⟨hseen2, ?_, ?_⟩ <;>
          · intro hmem
            rcases List.mem_append.mp hmem with h | h
            · first
                | exact (hcap_tr _ h).1 rfl
                | exact (hcap_tr _ h).2 rfl
            · first
                | exact (htr2 _ h).1 rfl
                | exact (htr2 _ h).2 rfl
      · rw [if_neg hmade]
        cases hcur2 : (unitLoop bum ⟨imShiftRemove errors0 target, [], st.fsys,
            none, target :: st.seen, false, []⟩).current_target with
        | some pkg =>
          dsimp only
          refine ⟨List.mem_cons_of_mem _ hseen2, ?_, ?_⟩ <;>
            · intro hmem
              rcases List.mem_append.mp hmem with h | h
              · rcases List.mem_append.mp h with h | h
                · first
                    | exact (hcap_tr _ h).1 rfl
                    | exact (hcap_tr _ h).2 rfl
                · first
                    | exact (htr2 _ h).1 rfl
                    | exact (htr2 _ h).2 rfl
              · rcases mem_finalize_trace h with heq | ⟨f, n, heq⟩ | ⟨s, heq⟩ <;>
                  simp at heq
        | none =>
          dsimp only
          refine ⟨hseen2, ?_, ?_⟩ <;>
            · intro hmem
              rcases List.mem_append.mp hmem with h | h
              · first
                  | exact (hcap_tr _ h).1 rfl
                  | exact (hcap_tr _ h).2 rfl
              · first
                  | exact (htr2 _ h).1 rfl
                  | exact (htr2 _ h).2 rfl
  · rw [capStep_lt env errors0 bum st (by omega)]
    dsimp only
    rw [if_neg (by simp)]
    obtain ⟨hseen2, htr2⟩ := hloop errors0 st hu
    by_cases hmade : (unitLoop bum ⟨errors0, st.files, st.fsys,
        st.current_target, st.seen, false, []⟩).made_changes = true
    · rw [if_pos hmade]
      refine ⟨hseen2, ?_, ?_⟩ <;>
        · intro hmem
          rcases List.mem_append.mp hmem with h | h
          · simp at h
          · first
              | exact (htr2 _ h).1 rfl
              | exact (htr2 _ h).2 rfl
    · rw [if_neg hmade]
      cases hcur2 : (unitLoop bum ⟨errors0, st.files, st.fsys,
          st.current_target, st.seen, false, []⟩).current_target with
      | some pkg =>
        dsimp only
        refine ⟨List.mem_cons_of_mem _ hseen2, ?_, ?_⟩ <;>
          · intro hmem
            rcases List.mem_append.mp hmem with h | h
            · rcases List.mem_append.mp h with h | h
              · simp at h
              · first
                  | exact (htr2 _ h).1 rfl
                  | exact (htr2 _ h).2 rfl
            · rcases mem_finalize_trace h with heq | ⟨f, n, heq⟩ | ⟨s, heq⟩ <;>
                simp at heq
      | none =>
        dsimp only
        refine ⟨hseen2, ?_, ?_⟩ <;>
          · intro hmem
            rcases List.mem_append.mp hmem with h | h
            · simp at h
            · first
                | exact (htr2 _ h).1 rfl
                | exact (htr2 _ h).2 rfl

/-! ### Termination of the main loop -/

/-- The number of build units of `univ` not yet in `seen`. -/
def countUnseen : List BuildUnit → List BuildUnit → Nat
  | [], _ => 0
  | v :: t, seen => (if v ∈ seen then 0 else 1) + countUnseen t seen

/-- The loop invariant of `fn exec`: a current target has been current for
`1 ≤ iteration ≤ max_iterations` passes and is an unseen unit of the
diagnostic universe; with no current target the iteration counter is zero. -/
def invExec (env : ExecEnv) (univ : List BuildUnit) (st : ExecState) : Prop :=
  match st.current_target with
  | some u => 1 ≤ st.iteration ∧ st.iteration ≤ env.max_iterations ∧
      u ∈ univ ∧ u ∉ st.seen
  | none => st.iteration = 0

/-- The termination measure of the main loop of `fn exec`. -/
def measureExec (env : ExecEnv) (univ : List BuildUnit) (st : ExecState) :
    Nat :=
  (env.max_iterations + 1) * countUnseen univ st.seen -
    (match st.current_target with
     | some _ => st.iteration
     | none => 0)

theorem countUnseen_mono (univ : List BuildUnit) (seen seen' : List BuildUnit)
    (hsub : ∀ x, x ∈ seen → x ∈ seen') :
    countUnseen univ seen' ≤ countUnseen univ seen := by
  induction univ with
  | nil => exact Nat.le_refl 0
  | cons v t ih =>
    dsimp only [countUnseen]
    by_cases h' : v ∈ seen'
    · rw [if_pos h']
      by_cases h : v ∈ seen
      · rw [if_pos h]; omega
      · rw [if_neg h]; omega
    · have h : v ∉ seen := fun hx => h' (hsub v hx)
      rw [if_neg h', if_neg h]; omega

theorem countUnseen_cons_lt (univ : List BuildUnit) (seen : List BuildUnit)
    (v : BuildUnit) (hv : v ∈ univ) (hns : v ∉ seen) :
    countUnseen univ (v :: seen) < countUnseen univ seen := by
  induction univ with
  | nil => cases hv
  | cons u t ih =>
    dsimp only [countUnseen]
    rcases List.mem_cons.mp hv with rfl | hv'
    · rw [if_pos (List.mem_cons_self _ _), if_neg hns]
      have hm := countUnseen_mono t seen (v :: seen)
        (fun x hx => List.mem_cons_of_mem _ hx)
      omega
    · have h1 := ih hv'
      by_cases h : u ∈ seen
      · rw [if_pos h, if_pos (List.mem_cons_of_mem _ h)]; omega
      · rw [if_neg h]
        by_cases h2 : u ∈ v :: seen
        · rw [if_pos h2]; omega
        · rw [if_neg h2]; omega

theorem countUnseen_sub_lt (univ : List BuildUnit) (seen seen' : List BuildUnit)
    (v : BuildUnit) (hv : v ∈ univ) (hns : v ∉ seen)
    (hsub : ∀ x, x ∈ v :: seen → x ∈ seen') :
    countUnseen univ seen' < countUnseen univ seen :=
  Nat.lt_of_le_of_lt (countUnseen_mono univ (v :: seen) seen' hsub)
    (countUnseen_cons_lt univ seen v hv hns)

theorem countUnseen_pos (univ seen : List BuildUnit) (v : BuildUnit)
    (hv : v ∈ univ) (hns : v ∉ seen) : 1 ≤ countUnseen univ seen := by
  induction univ with
  | nil => cases hv
  | cons u t ih =>
    dsimp only [countUnseen]
    rcases List.mem_cons.mp hv with rfl | hv'
    · rw [if_neg hns]; omega
    · have := ih hv'; omega

theorem execPass_measure (env : ExecEnv) (messages : List CheckOutput)
    (st : ExecState) (univ : List BuildUnit) (st' : ExecState)
    (tr : List Event)
    (hcov : ∀ u ∈ imKeys (collect_errors env.collectEnv messages st.seen).2,
      u ∈ univ)
    (hinv : invExec env univ st)
    (hstep : execPass env messages st = (st', tr, true)) :
    invExec env univ st' ∧
    measureExec env univ st' < measureExec env univ st := by
  unfold execPass at hstep
  rcases hcol : collect_errors env.collectEnv messages st.seen with ⟨errors0, bum⟩
  rw [hcol] at hstep hcov
  dsimp only at hstep hcov
  by_cases hge : env.max_iterations ≤ st.iteration
  · rcases hcur0 : st.current_target with _ | target
    · rw [capStep_ge_none env errors0 bum st hge hcur0] at hstep
      simp at hstep
    · rw [capStep_ge_some env errors0 bum st target hge hcur0] at hstep
      dsimp only at hstep
      rw [if_neg (by simp)] at hstep
      unfold invExec at hinv
      rw [hcur0] at hinv
      dsimp only at hinv
      obtain ⟨h1le, hlem, htmem, htns⟩ := hinv
      obtain ⟨A, hA, hnd, hseen, hcur⟩ := unitLoop_none bum
        ⟨imShiftRemove errors0 target, [], st.fsys, none,
         target :: st.seen, false, []⟩ rfl
      by_cases hmade : (unitLoop bum
          ⟨imShiftRemove errors0 target, [], st.fsys, none,
           target :: st.seen, false, []⟩).made_changes = true
      · rw [if_pos hmade] at hstep
        rcases hcur with ⟨_, hmf⟩ | ⟨v, hv1, hv2, hv3, hv4⟩
        · rw [hmade] at hmf; simp at hmf
        · injection hstep with hst hrest
          injection hrest with htr hflag
          subst hst htr
          constructor
          · unfold invExec
            dsimp only
            rw [hv1]
            dsimp only
            refine ⟨by omega, by omega, hcov v hv2, ?_⟩
            rw [hseen]
            dsimp only at hv4
            intro hx
            rcases List.mem_append.mp hx with hx | hx
            · exact hv3 hx
            · exact hv4 hx
          · unfold measureExec
            dsimp only
            rw [hv1, hseen, hcur0]
            dsimp only
            have hlt := countUnseen_sub_lt univ st.seen
              (A ++ target :: st.seen) target htmem htns
              (fun x hx => List.mem_append.mpr (Or.inr hx))
            have hmul := Nat.mul_le_mul_left (env.max_iterations + 1)
              (Nat.lt_iff_add_one_le.mp hlt)
            rw [Nat.mul_add, Nat.mul_one] at hmul
            omega
      · rw [if_neg hmade] at hstep
        rcases hacur : (unitLoop bum
            ⟨imShiftRemove errors0 target, [], st.fsys, none,
             target :: st.seen, false, []⟩).current_target with _ | pkg
        · rw [hacur] at hstep
          simp at hstep
        · rw [hacur] at hstep
          dsimp only at hstep
          rcases hcur with ⟨hcn, _⟩ | ⟨v, hv1, hv2, hv3, hv4⟩
          · rw [hacur] at hcn; simp at hcn
          · rw [hacur] at hv1
            injection hv1 with hv1
            subst hv1
            injection hstep with hst hrest
            injection hrest with htr hflag
            subst hst htr
            constructor
            · rfl
            · unfold measureExec
              dsimp only
              rw [hseen, hcur0]
              dsimp only
              have hsub : ∀ x, x ∈ target :: st.seen →
                  x ∈ pkg :: (A ++ target :: st.seen) := by
                intro x hx
                exact List.mem_cons_of_mem _
                  (List.mem_append.mpr (Or.inr hx))
              have hlt := countUnseen_sub_lt univ st.seen
                (pkg :: (A ++ target :: st.seen)) target htmem htns hsub
              have hmul := Nat.mul_le_mul_left (env.max_iterations + 1)
                (Nat.lt_iff_add_one_le.mp hlt)
              rw [Nat.mul_add, Nat.mul_one] at hmul
              omega
  · rw [capStep_lt env errors0 bum st (by omega)] at hstep
    dsimp only at hstep
    rw [if_neg (by simp)] at hstep
    rcases hcur0 : st.current_target with _ | u
    · unfold invExec at hinv
      rw [hcur0] at hinv
      dsimp only at hinv
      rw [hcur0] at hstep
      obtain ⟨A, hA, hnd, hseen, hcur⟩ := unitLoop_none bum
        ⟨errors0, st.files, st.fsys, none, st.seen, false, []⟩ rfl
      by_cases hmade : (unitLoop bum
          ⟨errors0, st.files, st.fsys, none, st.seen, false, []⟩).made_changes =
          true
      · rw [if_pos hmade] at hstep
        rcases hcur with ⟨_, hmf⟩ | ⟨v, hv1, hv2, hv3, hv4⟩
        · rw [hmade] at hmf; simp at hmf
        · injection hstep with hst hrest
          injection hrest with htr hflag
          subst hst htr
          constructor
          · unfold invExec
            dsimp only
            rw [hv1]
            dsimp only
            refine ⟨by omega, by omega, hcov v hv2, ?_⟩
            rw [hseen]
            dsimp only at hv4
            intro hx
            rcases List.mem_append.mp hx with hx | hx
            · exact hv3 hx
            · exact hv4 hx
          · unfold measureExec
            dsimp only
            rw [hv1, hseen, hcur0]
            dsimp only
            dsimp only at hv4
            have hmono := countUnseen_mono univ st.seen (A ++ st.seen)
              (fun x hx => List.mem_append.mpr (Or.inr hx))
            have hpos := countUnseen_pos univ (A ++ st.seen) v (hcov v hv2)
              (by
                intro hx
                rcases List.mem_append.mp hx with hx | hx
                · exact hv3 hx
                · exact hv4 hx)
            have hmul := Nat.mul_le_mul_left (env.max_iterations + 1) hmono
            have hmul2 := Nat.mul_le_mul_left (env.max_iterations + 1) hpos
            rw [Nat.mul_one] at hmul2
            omega
      · rw [if_neg hmade] at hstep
        rcases hacur : (unitLoop bum
            ⟨errors0, st.files, st.fsys, none, st.seen, false,
             []⟩).current_target with _ | pkg
        · rw [hacur] at hstep
          simp at hstep
        · rw [hacur] at hstep
          dsimp only at hstep
          rcases hcur with ⟨hcn, _⟩ | ⟨v, hv1, hv2, hv3, hv4⟩
          · rw [hacur] at hcn; simp at hcn
          · rw [hacur] at hv1
            injection hv1 with hv1
            subst hv1
            injection hstep with hst hrest
            injection hrest with htr hflag
            subst hst htr
            constructor
            · rfl
            · unfold measureExec
              dsimp only
              rw [hseen, hcur0]
              dsimp only
              dsimp only at hv4
              have hlt := countUnseen_sub_lt univ st.seen
                (pkg :: (A ++ st.seen)) pkg (hcov pkg hv2) hv4
                (fun x hx => by
                  rcases List.mem_cons.mp hx with rfl | hx
                  · exact List.mem_cons_self _ _
                  · exact List.mem_cons_of_mem _
                      (List.mem_append.mpr (Or.inr hx)))
              have hmul := Nat.mul_le_mul_left (env.max_iterations + 1)
                (Nat.lt_iff_add_one_le.mp hlt)
              rw [Nat.mul_add, Nat.mul_one] at hmul
              omega
    · unfold invExec at hinv
      rw [hcur0] at hinv
      dsimp only at hinv
      obtain ⟨h1le, hlem, humem, huns⟩ := hinv
      rw [hcur0] at hstep
      obtain ⟨hc2, hs2⟩ := unitLoop_some bum
        ⟨errors0, st.files, st.fsys, some u, st.seen, false, []⟩ u rfl
      by_cases hmade : (unitLoop bum
          ⟨errors0, st.files, st.fsys, some u, st.seen, false,
           []⟩).made_changes = true
      · rw [if_pos hmade] at hstep
        injection hstep with hst hrest
        injection hrest with htr hflag
        subst hst htr
        constructor
        · unfold invExec
          dsimp only
          rw [hc2]
          dsimp only
          rw [hs2]
          exact ⟨by omega, by omega, humem, huns⟩
        · unfold measureExec
          dsimp only
          rw [hc2, hs2, hcur0]
          dsimp only
          have hpos := countUnseen_pos univ st.seen u humem huns
          have hmul2 := Nat.mul_le_mul_left (env.max_iterations + 1) hpos
          rw [Nat.mul_one] at hmul2
          omega
      · rw [if_neg hmade] at hstep
        rw [hc2] at hstep
        dsimp only at hstep
        injection hstep with hst hrest
        injection hrest with htr hflag
        subst hst htr
        constructor
        · rfl
        · unfold measureExec
          dsimp only
          rw [hs2, hcur0]
          dsimp only
          have hlt := countUnseen_cons_lt univ st.seen u humem huns
          have hmul := Nat.mul_le_mul_left (env.max_iterations + 1)
            (Nat.lt_iff_add_one_le.mp hlt)
          rw [Nat.mul_add, Nat.mul_one] at hmul
          omega

theorem execLoop_terminates (env : ExecEnv)
    (passes : Nat → List CheckOutput × Option Int) (univ : List BuildUnit)
    (hcov : ∀ i : Nat, ∀ out ∈ (passes i).1, CheckOutput.buildUnit out ∈ univ) :
    ∀ (fuel passIdx : Nat) (st : ExecState), invExec env univ st →
      measureExec env univ st < fuel →
      (execLoop env passes fuel passIdx st).isSome = true := by
  intro fuel
  induction fuel with
  | zero => intro passIdx st _ hm; omega
  | succ f ih =>
    intro passIdx st hinv hm
    unfold execLoop
    rcases hp : passes passIdx with ⟨messages, ec⟩
    dsimp only [checkPass]
    rcases hep : execPass env messages st with ⟨st', tr, cont⟩
    dsimp only
    cases cont with
    | false => simp
    | true =>
      have hcov' : ∀ u ∈ imKeys
          (collect_errors env.collectEnv messages st.seen).2, u ∈ univ := by
        intro u hu
        obtain ⟨out, hout, rfl⟩ :=
          collect_keys_sub env.collectEnv st.seen messages u hu
        have hc := hcov passIdx
        rw [hp] at hc
        exact hc out hout
      obtain ⟨hinv', hlt⟩ :=
        execPass_measure env messages st univ st' tr hcov' hinv hep
      have hrun := ih (passIdx + 1) st' hinv' (by omega)
      cases hrec : execLoop env passes f (passIdx + 1) st' with
      | none => rw [hrec] at hrun; simp at hrun
      | some r =>
        obtain ⟨stF, trF, n⟩ := r
        simp

theorem fixUnitsOf_finalize (seen : List BuildUnit) (target : BuildUnit)
    (files : List (String × Nat)) (es : List String) :
    fixUnitsOf (announceChecking seen target ++ reportFiles files ++
      printErrors es) = [] := by
  simp [fixUnitsOf_append, fixUnitsOf_announce, fixUnitsOf_reportFiles,
    fixUnitsOf_printErrors]

theorem writesOf_finalize (seen : List BuildUnit) (target : BuildUnit)
    (files : List (String × Nat)) (es : List String) :
    writesOf (announceChecking seen target ++ reportFiles files ++
      printErrors es) = [] := by
  simp [writesOf_append, writesOf_announce, writesOf_reportFiles,
    writesOf_printErrors]

theorem execPass_c2 (env : ExecEnv) (messages : List CheckOutput)
    (st : ExecState) (st' : ExecState) (tr : List Event) (cont : Bool)
    (hstep : execPass env messages st = (st', tr, cont)) :
    (fixUnitsOf tr = [] ∧ writesOf tr = []) ∨
    ∃ u fmu,
      (u, fmu) ∈ (collect_errors env.collectEnv messages st.seen).2 ∧
      fixUnitsOf tr = [u] ∧
      (st.current_target = some u ∨ Event.selected u ∈ tr) ∧
      ∀ w ∈ writesOf tr, w.1 ∈ imKeys fmu := by
  unfold execPass at hstep
  rcases hcol : collect_errors env.collectEnv messages st.seen with ⟨errors0, bum⟩
  rw [hcol] at hstep
  dsimp only at hstep ⊢
  have hnd : (imKeys bum).Nodup := by
    have h := collect_keys_nodup env.collectEnv st.seen messages
    rw [hcol] at h
    exact h
  by_cases hge : env.max_iterations ≤ st.iteration
  · rcases hcur0 : st.current_target with _ | target
    · rw [capStep_ge_none env errors0 bum st hge hcur0] at hstep
      dsimp only at hstep
      rw [if_pos rfl] at hstep
      injection hstep with hst hrest
      injection hrest with htr hflag
      subst htr
      exact Or.inl ⟨rfl, rfl⟩
    · rw [capStep_ge_some env errors0 bum st target hge hcur0] at hstep
      dsimp only at hstep
      rw [if_neg (by simp)] at hstep
      rcases unitLoop_c2 bum
          ⟨imShiftRemove errors0 target, [], st.fsys, none,
           target :: st.seen, false, []⟩ hnd rfl rfl with
        ⟨hf, hw⟩ | ⟨u, fmu, hmem, hfx, hsel, hw⟩
      · by_cases hmade : (unitLoop bum
            ⟨imShiftRemove errors0 target, [], st.fsys, none,
             target :: st.seen, false, []⟩).made_changes = true
        · rw [if_pos hmade] at hstep
          injection hstep with hst hrest
          injection hrest with htr hflag
          subst htr
          refine Or.inl ⟨?_, ?_⟩
          · simp [fixUnitsOf_append, hf, fixUnitsOf_announce,
              fixUnitsOf_reportFiles, fixUnitsOf_printErrors]
          · simp [writesOf_append, hw, writesOf_announce,
              writesOf_reportFiles, writesOf_printErrors]
        · rw [if_neg hmade] at hstep
          rcases hacur : (unitLoop bum
              ⟨imShiftRemove errors0 target, [], st.fsys, none,
               target :: st.seen, false, []⟩).current_target with _ | pkg <;>
            rw [hacur] at hstep <;> dsimp only at hstep <;>
            injection hstep with hst hrest <;>
            injection hrest with htr hflag <;> subst htr
          · refine Or.inl ⟨?_, ?_⟩
            · simp [fixUnitsOf_append, hf, fixUnitsOf_announce,
                fixUnitsOf_reportFiles, fixUnitsOf_printErrors]
            · simp [writesOf_append, hw, writesOf_announce,
                writesOf_reportFiles, writesOf_printErrors]
          · refine Or.inl ⟨?_, ?_⟩
            · simp [fixUnitsOf_append, hf, fixUnitsOf_announce,
                fixUnitsOf_reportFiles, fixUnitsOf_printErrors]
            · simp [writesOf_append, hw, writesOf_announce,
                writesOf_reportFiles, writesOf_printErrors]
      · have hsel2 : Event.selected u ∈ (unitLoop bum
            ⟨imShiftRemove errors0 target, [], st.fsys, none,
             target :: st.seen, false, []⟩).trace := by
          rcases hsel with h | h
          · simp at h
          · exact h
        by_cases hmade : (unitLoop bum
            ⟨imShiftRemove errors0 target, [], st.fsys, none,
             target :: st.seen, false, []⟩).made_changes = true
        · rw [if_pos hmade] at hstep
          injection hstep with hst hrest
          injection hrest with htr hflag
          subst htr
          refine Or.inr ⟨u, fmu, hmem, ?_, Or.inr ?_, ?_⟩
          · simp [fixUnitsOf_append, hfx, fixUnitsOf_announce,
              fixUnitsOf_reportFiles, fixUnitsOf_printErrors]
          · simp [List.mem_append, hsel2]
          · intro w hw2
            simp only [writesOf_append, writesOf_announce,
              writesOf_reportFiles, writesOf_printErrors, List.nil_append,
              List.append_nil] at hw2
            exact hw w hw2
        · rw [if_neg hmade] at hstep
          rcases hacur : (unitLoop bum
              ⟨imShiftRemove errors0 target, [], st.fsys, none,
               target :: st.seen, false, []⟩).current_target with _ | pkg <;>
            rw [hacur] at hstep <;> dsimp only at hstep <;>
            injection hstep with hst hrest <;>
            injection hrest with htr hflag <;> subst htr
          · refine Or.inr ⟨u, fmu, hmem, ?_, Or.inr ?_, ?_⟩
            · simp [fixUnitsOf_append, hfx, fixUnitsOf_announce,
                fixUnitsOf_reportFiles, fixUnitsOf_printErrors]
            · simp [List.mem_append, hsel2]
            · intro w hw2
              simp only [writesOf_append, writesOf_announce,
                writesOf_reportFiles, writesOf_printErrors, List.nil_append,
                List.append_nil] at hw2
              exact hw w hw2
          · refine Or.inr ⟨u, fmu, hmem, ?_, Or.inr ?_, ?_⟩
            · simp [fixUnitsOf_append, hfx, fixUnitsOf_announce,
                fixUnitsOf_reportFiles, fixUnitsOf_printErrors]
            · simp [List.mem_append, hsel2]
            · intro w hw2
              simp only [writesOf_append, writesOf_announce,
                writesOf_reportFiles, writesOf_printErrors, List.nil_append,
                List.append_nil] at hw2
              exact hw w hw2
  · rw [capStep_lt env errors0 bum st (by omega)] at hstep
    dsimp only at hstep
    rw [if_neg (by simp)] at hstep
    rcases unitLoop_c2 bum
        ⟨errors0, st.files, st.fsys, st.current_target, st.seen, false, []⟩
        hnd rfl rfl with
      ⟨hf, hw⟩ | ⟨u, fmu, hmem, hfx, hsel, hw⟩
    · by_cases hmade : (unitLoop bum
          ⟨errors0, st.files, st.fsys, st.current_target, st.seen, false,
           []⟩).made_changes = true
      · rw [if_pos hmade] at hstep
        injection hstep with hst hrest
        injection hrest with htr hflag
        subst htr
        exact Or.inl ⟨by simp [fixUnitsOf_append, hf],
          by simp [writesOf_append, hw]⟩
      · rw [if_neg hmade] at hstep
        rcases hacur : (unitLoop bum
            ⟨errors0, st.files, st.fsys, st.current_target, st.seen, false,
             []⟩).current_target with _ | pkg <;>
          rw [hacur] at hstep <;> dsimp only at hstep <;>
          injection hstep with hst hrest <;>
          injection hrest with htr hflag <;> subst htr
        · exact Or.inl ⟨by simp [fixUnitsOf_append, hf],
            by simp [writesOf_append, hw]⟩
        · refine Or.inl ⟨?_, ?_⟩
          · simp [fixUnitsOf_append, hf, fixUnitsOf_announce,
              fixUnitsOf_reportFiles, fixUnitsOf_printErrors]
          · simp [writesOf_append, hw, writesOf_announce,
              writesOf_reportFiles, writesOf_printErrors]
    · have hsel2 : st.current_target = some u ∨ Event.selected u ∈ (unitLoop bum
          ⟨errors0, st.files, st.fsys, st.current_target, st.seen, false,
           []⟩).trace := hsel
      by_cases hmade : (unitLoop bum
          ⟨errors0, st.files, st.fsys, st.current_target, st.seen, false,
           []⟩).made_changes = true
      · rw [if_pos hmade] at hstep
        injection hstep with hst hrest
        injection hrest with htr hflag
        subst htr
        refine Or.inr ⟨u, fmu, hmem, by simp [fixUnitsOf_append, hfx], ?_, ?_⟩
        · rcases hsel2 with h | h
          · exact Or.inl h
          · exact Or.inr (by simp [List.mem_append, h])
        · intro w hw2
          simp only [writesOf_append, List.nil_append] at hw2
          exact hw w (by simpa [writesOf] using hw2)
      · rw [if_neg hmade] at hstep
        rcases hacur : (unitLoop bum
            ⟨errors0, st.files, st.fsys, st.current_target, st.seen, false,
             []⟩).current_target with _ | pkg <;>
          rw [hacur] at hstep <;> dsimp only at hstep <;>
          injection hstep with hst hrest <;>
          injection hrest with htr hflag <;> subst htr
        · refine Or.inr ⟨u, fmu, hmem, by simp [fixUnitsOf_append, hfx], ?_, ?_⟩
          · rcases hsel2 with h | h
            · exact Or.inl h
            · exact Or.inr (by simp [List.mem_append, h])
          · intro w hw2
            simp only [writesOf_append, List.nil_append] at hw2
            exact hw w (by simpa [writesOf] using hw2)
        · refine Or.inr ⟨u, fmu, hmem, ?_, ?_, ?_⟩
          · simp [fixUnitsOf_append, hfx, fixUnitsOf_announce,
              fixUnitsOf_reportFiles, fixUnitsOf_printErrors]
          · rcases hsel2 with h | h
            · exact Or.inl h
            · exact Or.inr (by simp [List.mem_append, h])
          · intro w hw2
            simp only [writesOf_append, writesOf_announce,
              writesOf_reportFiles, writesOf_printErrors, List.nil_append,
              List.append_nil] at hw2
            exact hw w hw2

theorem execPass_c10 (env : ExecEnv) (messages : List CheckOutput)
    (st : ExecState) (st' : ExecState) (tr : List Event) (cont : Bool)
    (u : BuildUnit)
    (hlookup : imLookup (collect_errors env.collectEnv messages st.seen).2 u =
      none)
    (hseen : u ∉ st.seen) (hcur : st.current_target ≠ some u)
    (hstep : execPass env messages st = (st', tr, cont)) :
    u ∉ st'.seen ∧ Event.checking u ∉ tr ∧ Event.selected u ∉ tr ∧
    Event.fixUnit u ∉ tr := by
  unfold execPass at hstep
  rcases hcol : collect_errors env.collectEnv messages st.seen with ⟨errors0, bum⟩
  rw [hcol] at hstep hlookup
  dsimp only at hstep hlookup
  have hkeys : u ∉ imKeys bum := (imLookup_eq_none_iff bum u).mp hlookup
  have hloop : ∀ (errs : ErrorsMap) (files : List (String × Nat))
      (fsys : String → Option String) (cur : Option BuildUnit)
      (sn : List BuildUnit), u ∉ sn →
      (u ∉ (unitLoop bum ⟨errs, files, fsys, cur, sn, false, []⟩).seen ∧
       ∀ e ∈ (unitLoop bum ⟨errs, files, fsys, cur, sn, false, []⟩).trace,
         e ≠ Event.checking u ∧ e ≠ Event.selected u ∧ e ≠ Event.fixUnit u) := by
    intro errs files fsys cur sn hsn
    constructor
    · intro hx
      rcases unitLoop_seen_shape bum _ u hx with h | h
      · exact hsn h
      · exact hkeys h
    · intro e he
      rcases unitLoop_trace_shape bum _ e he with h | ⟨s, rfl⟩ | ⟨f, c, rfl⟩ |
          ⟨v, hv1, hv2, hv3⟩
      · simp at h
      · exact ⟨by simp, by simp, by simp⟩
      · exact ⟨by simp, by simp, by simp⟩
      · have hvu : v ≠ u := fun h => hkeys (h ▸ hv1)
        rcases hv3 with rfl | rfl | rfl <;>
          exact ⟨by simp [hvu], by simp [hvu], by simp [hvu]⟩
  by_cases hge : env.max_iterations ≤ st.iteration
  · rcases hcur0 : st.current_target with _ | target
    · rw [capStep_ge_none env errors0 bum st hge hcur0] at hstep
      dsimp only at hstep
      rw [if_pos rfl] at hstep
      injection hstep with hst hrest
      injection hrest with htr hflag
      subst hst htr
      exact ⟨hseen, by simp, by simp, by simp⟩
    · have htu : target ≠ u := by
        intro h
        rw [hcur0, h] at hcur
        exact hcur rfl
      rw [capStep_ge_some env errors0 bum st target hge hcur0] at hstep
      dsimp only at hstep
      rw [if_neg (by simp)] at hstep
      have hsn1 : u ∉ target :: st.seen := by
        intro hx
        rcases List.mem_cons.mp hx with h | h
        · exact htu h.symm
        · exact hseen h
      obtain ⟨hA, hB⟩ := hloop (imShiftRemove errors0 target) [] st.fsys none
        (target :: st.seen) hsn1
      have hcap_tr : ∀ e, e ∈ announceChecking st.seen target ++
          reportFiles st.files ++ printErrors
            (match imLookup bum target with
             | some fm => pendingRendered fm ((imLookup errors0 target).getD [])
             | none => (imLookup errors0 target).getD []) →
          e ≠ Event.checking u ∧ e ≠ Event.selected u ∧
            e ≠ Event.fixUnit u := by
        intro e he
        rcases mem_finalize_trace he with rfl | ⟨f, n, rfl⟩ | ⟨s, rfl⟩
        · exact ⟨by simp [htu], by simp, by simp⟩
        · exact ⟨by simp, by simp, by simp⟩
        · exact ⟨by simp, by simp, by simp⟩
      by_cases hmade : (unitLoop bum ⟨imShiftRemove errors0 target, [],
          st.fsys, none, target :: st.seen, false, []⟩).made_changes = true
      · rw [if_pos hmade] at hstep
        injection hstep with hst hrest
        injection hrest with htr hflag
        subst hst htr
        refine ⟨hA, ?_, ?_, ?_⟩ <;>
          · intro hmem
            rcases List.mem_append.mp hmem with h | h
            · first
                | exact (hcap_tr _ h).1 rfl
                | exact (hcap_tr _ h).2.1 rfl
                | exact (hcap_tr _ h).2.2 rfl
            · first
                | exact (hB _ h).1 rfl
                | exact (hB _ h).2.1 rfl
                | exact (hB _ h).2.2 rfl
      · rw [if_neg hmade] at hstep
        rcases hacur : (unitLoop bum ⟨imShiftRemove errors0 target, [],
            st.fsys, none, target :: st.seen, false, []⟩).current_target
            with _ | pkg <;>
          rw [hacur] at hstep <;> dsimp only at hstep <;>
          injection hstep with hst hrest <;>
          injection hrest with htr hflag <;> subst hst htr
        · refine ⟨hA, ?_, ?_, ?_⟩ <;>
            · intro hmem
              rcases List.mem_append.mp hmem with h | h
              · first
                  | exact (hcap_tr _ h).1 rfl
                  | exact (hcap_tr _ h).2.1 rfl
                  | exact (hcap_tr _ h).2.2 rfl
              · first
                  | exact (hB _ h).1 rfl
                  | exact (hB _ h).2.1 rfl
                  | exact (hB _ h).2.2 rfl
        · have hpku : pkg ≠ u := by
            rcases unitLoop_current_shape bum ⟨imShiftRemove errors0 target,
                [], st.fsys, none, target :: st.seen, false, []⟩ with h |
                ⟨v, hv1, hv2, hv3⟩
            · rw [hacur] at h; simp at h
            · rw [hacur] at hv3
              injection hv3 with hv3
              subst hv3
              exact fun h => hkeys (h ▸ hv1)
          refine ⟨?_, ?_, ?_, ?_⟩
          · dsimp only
            intro hx
            rcases List.mem_cons.mp hx with h | h
            · exact hpku h.symm
            · exact hA h
          all_goals
            · intro hmem
              rcases List.mem_append.mp hmem with h | h
              · rcases List.mem_append.mp h with h | h
                · first
                    | exact (hcap_tr _ h).1 rfl
                    | exact (hcap_tr _ h).2.1 rfl
                    | exact (hcap_tr _ h).2.2 rfl
                · first
                    | exact (hB _ h).1 rfl
                    | exact (hB _ h).2.1 rfl
                    | exact (hB _ h).2.2 rfl
              · rcases mem_finalize_trace h with heq | ⟨f, n, heq⟩ |
                    ⟨s, heq⟩ <;>
                  simp [Ne.symm hpku] at heq
  · rw [capStep_lt env errors0 bum st (by omega)] at hstep
    dsimp only at hstep
    rw [if_neg (by simp)] at hstep
    obtain ⟨hA, hB⟩ := hloop errors0 st.files st.fsys st.current_target
      st.seen hseen
    by_cases hmade : (unitLoop bum ⟨errors0, st.files, st.fsys,
        st.current_target, st.seen, false, []⟩).made_changes = true
    · rw [if_pos hmade] at hstep
      injection hstep with hst hrest
      injection hrest with htr hflag
      subst hst htr
      refine ⟨hA, ?_, ?_, ?_⟩ <;>
        · intro hmem
          rcases List.mem_append.mp hmem with h | h
          · simp at h
          · first
              | exact (hB _ h).1 rfl
              | exact (hB _ h).2.1 rfl
              | exact (hB _ h).2.2 rfl
    · rw [if_neg hmade] at hstep
      rcases hacur : (unitLoop bum ⟨errors0, st.files, st.fsys,
          st.current_target, st.seen, false, []⟩).current_target
          with _ | pkg <;>
        rw [hacur] at hstep <;> dsimp only at hstep <;>
        injection hstep with hst hrest <;>
        injection hrest with htr hflag <;> subst hst htr
      · refine ⟨hA, ?_, ?_, ?_⟩ <;>
          · intro hmem
            rcases List.mem_append.mp hmem with h | h
            · simp at h
            · first
                | exact (hB _ h).1 rfl
                | exact (hB _ h).2.1 rfl
                | exact (hB _ h).2.2 rfl
      · have hpku : pkg ≠ u := by
          rcases unitLoop_current_shape bum ⟨errors0, st.files, st.fsys,
              st.current_target, st.seen, false, []⟩ with h | ⟨v, hv1, hv2, hv3⟩
          · rw [hacur] at h
            dsimp only at h
            exact fun he => hcur (by rw [← h, he])
          · rw [hacur] at hv3
            injection hv3 with hv3
            subst hv3
            exact fun h => hkeys (h ▸ hv1)
        refine ⟨?_, ?_, ?_, ?_⟩
        · dsimp only
          intro hx
          rcases List.mem_cons.mp hx with h | h
          · exact hpku h.symm
          · exact hA h
        all_goals
          · intro hmem
            rcases List.mem_append.mp hmem with h | h
            · rcases List.mem_append.mp h with h | h
              · simp at h
              · first
                  | exact (hB _ h).1 rfl
                  | exact (hB _ h).2.1 rfl
                  | exact (hB _ h).2.2 rfl
            · rcases mem_finalize_trace h with heq | ⟨f, n, heq⟩ | ⟨s, heq⟩ <;>
                simp [Ne.symm hpku] at heq

theorem execLoop_c1 (env : ExecEnv)
    (passes : Nat → List CheckOutput × Option Int) :
    ∀ (fuel passIdx : Nat) (st stF : ExecState) (tr : List Event) (n : Nat)
      (u : BuildUnit), u ∈ st.seen →
      execLoop env passes fuel passIdx st = some (stF, tr, n) →
      u ∈ stF.seen ∧ Event.selected u ∉ tr ∧ Event.fixUnit u ∉ tr := by
  intro fuel
  induction fuel with
  | zero =>
    intro passIdx st stF tr n u hu hres
    simp [execLoop] at hres
  | succ f ih =>
    intro passIdx st stF tr n u hu hres
    unfold execLoop at hres
    rcases hp : passes passIdx with ⟨messages, ec⟩
    rw [hp] at hres
    dsimp only [checkPass] at hres
    rcases hep : execPass env messages st with ⟨st', tr1, cont⟩
    rw [hep] at hres
    dsimp only at hres
    obtain ⟨hseen1, hsel1, hfix1⟩ := execPass_c1 env messages st u hu
    rw [hep] at hseen1 hsel1 hfix1
    dsimp only at hseen1 hsel1 hfix1
    cases cont with
    | false =>
      rw [if_neg (by simp)] at hres
      injection hres with hres
      injection hres with h1 hrest
      injection hrest with h2 h3
      subst h1 h2
      exact ⟨hseen1, hsel1, hfix1⟩
    | true =>
      rw [if_pos rfl] at hres
      cases hrec : execLoop env passes f (passIdx + 1) st' with
      | none => rw [hrec] at hres; simp at hres
      | some r =>
        rw [hrec] at hres
        obtain ⟨stF', trF, m⟩ := r
        dsimp only at hres
        injection hres with hres
        injection hres with h1 hrest
        injection hrest with h2 h3
        subst h1 h2
        obtain ⟨hseen2, hsel2, hfix2⟩ :=
          ih (passIdx + 1) st' stF' trF m u hseen1 hrec
        refine ⟨hseen2, ?_, ?_⟩
        · intro hx
          rcases List.mem_append.mp hx with h | h
          · exact hsel1 h
          · exact hsel2 h
        · intro hx
          rcases List.mem_append.mp hx with h | h
          · exact hfix1 h
          · exact hfix2 h

theorem execLoop_exit_code_irrelevant (env : ExecEnv)
    (passes passes' : Nat → List CheckOutput × Option Int)
    (hsame : ∀ i, (passes i).1 = (passes' i).1) :
    ∀ (fuel passIdx : Nat) (st : ExecState),
      execLoop env passes fuel passIdx st =
      execLoop env passes' fuel passIdx st := by
  intro fuel
  induction fuel with
  | zero => intro passIdx st; rfl
  | succ f ih =>
    intro passIdx st
    unfold execLoop
    rcases hp : passes passIdx with ⟨messages, ec⟩
    rcases hp' : passes' passIdx with ⟨messages', ec'⟩
    have hm : messages = messages' := by
      have hs := hsame passIdx
      rw [hp, hp'] at hs
      exact hs
    subst hm
    dsimp only [checkPass]
    rcases hep : execPass env messages st with ⟨st', tr, cont⟩
    dsimp only
    cases cont with
    | false => rfl
    | true => rw [ih]

theorem countUnseen_le_length (univ seen : List BuildUnit) :
    countUnseen univ seen ≤ univ.length := by
  induction univ with
  | nil => exact Nat.le_refl 0
  | cons v t ih =>
    dsimp only [countUnseen, List.length_cons]
    by_cases h : v ∈ seen
    · rw [if_pos h]; omega
    · rw [if_neg h]; omega

/-! ### Concrete fixtures used by the witnesses and counterexamples -/

/-- A working tree on which every read fails. -/
def fsysW : String → Option String := fun _ => none

/-- A run configuration: clean working tree, default retry cap 4, a
registry-cache root and a sysroot. -/
def envW : ExecEnv := ⟨true, 4, some "/cargo_home", some "/sysroot"⟩

/-- A build unit. -/
def buW : BuildUnit := ⟨"lib", "pkg-a 0.1.0"⟩

/-- A state whose seen set already holds `buW`. -/
def stW1 : ExecState := ⟨[], 0, [], none, [buW], fsysW⟩

/-- The state after one idle pass from `stW1`. -/
def stF1W : ExecState := ⟨[], 1, [], none, [buW], fsysW⟩

/-- The state after one idle pass from `initState fsysW`. -/
def stFW : ExecState := ⟨[], 1, [], none, [], fsysW⟩

/-! ### The claims -/

/-- Claim C1: once a build unit `u` is in the seen set, every completed run
from that state keeps `u` seen, never emits `selected u` or `fixUnit u`
again, and `collect_errors` builds no suggestion-map entry for `u` in any
pass whose seen set holds `u` — later diagnostics for `u` are skipped. -/
theorem spec_c1 (env : ExecEnv) (passes : Nat → List CheckOutput × Option Int)
    (fuel passIdx : Nat) (st stF : ExecState) (tr : List Event) (n : Nat)
    (u : BuildUnit) (hu : u ∈ st.seen)
    (hres : execLoop env passes fuel passIdx st = some (stF, tr, n)) :
    u ∈ stF.seen ∧ Event.selected u ∉ tr ∧ Event.fixUnit u ∉ tr ∧
    ∀ (msgs : List CheckOutput) (seen : List BuildUnit), u ∈ seen →
      imLookup (collect_errors env.collectEnv msgs seen).2 u = none := by
  obtain ⟨h1, h2, h3⟩ :=
    execLoop_c1 env passes fuel passIdx st stF tr n u hu hres
  exact ⟨h1, h2, h3, fun msgs seen h =>
    collect_map_lookup_none_of_seen env.collectEnv seen u msgs h⟩

theorem spec_c1_witness :
    buW ∈ stF1W.seen ∧ Event.selected buW ∉ ([] : List Event) ∧
    Event.fixUnit buW ∉ ([] : List Event) ∧
    ∀ (msgs : List CheckOutput) (seen : List BuildUnit), buW ∈ seen →
      imLookup (collect_errors envW.collectEnv msgs seen).2 buW = none :=
  spec_c1 envW (fun _ => ([], none)) 3 0 stW1 stF1W [] 1 buW (by decide) rfl

/-- Claim C2: within one build pass, either no unit's edits are applied at
all, or `fix_errors` runs for exactly one unit — the current one, or the one
just selected in that pass — and every file written belongs to that unit's
collected file map. -/
theorem spec_c2 (env : ExecEnv) (messages : List CheckOutput)
    (st st' : ExecState) (tr : List Event) (cont : Bool)
    (hstep : execPass env messages st = (st', tr, cont)) :
    (fixUnitsOf tr = [] ∧ writesOf tr = []) ∨
    ∃ u fmu,
      (u, fmu) ∈ (collect_errors env.collectEnv messages st.seen).2 ∧
      fixUnitsOf tr = [u] ∧
      (st.current_target = some u ∨ Event.selected u ∈ tr) ∧
      ∀ w ∈ writesOf tr, w.1 ∈ imKeys fmu :=
  execPass_c2 env messages st st' tr cont hstep

theorem spec_c2_witness :
    (fixUnitsOf ([] : List Event) = [] ∧ writesOf ([] : List Event) = []) ∨
    ∃ u fmu,
      (u, fmu) ∈ (collect_errors envW.collectEnv [] (initState fsysW).seen).2 ∧
      fixUnitsOf ([] : List Event) = [u] ∧
      ((initState fsysW).current_target = some u ∨
        Event.selected u ∈ ([] : List Event)) ∧
      ∀ w ∈ writesOf ([] : List Event), w.1 ∈ imKeys fmu :=
  spec_c2 envW [] (initState fsysW) stFW [] false rfl

/-- Claim C3 (amended: one extra pass): when every pass reports diagnostics
only for units of a finite universe, the main loop terminates within
`(max_iterations + 1) * univ.length + 1` passes — the fuelled loop with that
bound completes.  The spec's bound without the final `+ 1` is too small: a
run with no diagnostics at all still takes one pass. -/
theorem spec_c3 (env : ExecEnv) (passes : Nat → List CheckOutput × Option Int)
    (fsys : String → Option String) (univ : List BuildUnit)
    (hcov : ∀ i : Nat, ∀ out ∈ (passes i).1, CheckOutput.buildUnit out ∈ univ) :
    (execLoop env passes ((env.max_iterations + 1) * univ.length + 1) 0
      (initState fsys)).isSome = true := by
  apply execLoop_terminates env passes univ hcov
  · rfl
  · unfold measureExec
    dsimp only [initState]
    have hle := countUnseen_le_length univ []
    have hmul := Nat.mul_le_mul_left (env.max_iterations + 1) hle
    omega

theorem spec_c3_witness :
    (execLoop envW (fun _ => ([], none))
      ((envW.max_iterations + 1) * ([] : List BuildUnit).length + 1) 0
      (initState fsysW)).isSome = true :=
  spec_c3 envW (fun _ => ([], none)) fsysW []
    (fun _ out h => absurd h (List.not_mem_nil out))

theorem spec_c3_counterexample :
    execLoop envW (fun _ => ([], none))
      ((envW.max_iterations + 1) * ([] : List BuildUnit).length) 0
      (initState fsysW) = none ∧
    (execLoop envW (fun _ => ([], none))
      ((envW.max_iterations + 1) * ([] : List BuildUnit).length + 1) 0
      (initState fsysW)).map (fun r => r.2.2) = some 1 :=
  ⟨rfl, rfl⟩

/-- Claim C4: the patch applier attempts a file's collected edits in exactly
the reverse of their discovery order — the attempted-suggestion trace of
`fixFile` is the reversed suggestion list. -/
theorem spec_c4 (code : String) (suggestions : List SuggPair)
    (errors : List String) :
    (fixFile code suggestions errors).attempted =
      (suggestions.map Prod.fst).reverse := by
  unfold fixFile
  rw [fixFold_attempted]
  simp

/-- Claim C5: an edit whose every replacement is already satisfied by the
buffer is an idempotent no-op — a pass of such edits leaves the buffer
unmodified (no rewrite), counts zero fixes and records no error; and
re-applying the same edit list to the buffer a pass produced changes neither
the buffer nor the fix count, so the second application yields the same
contents as the first and is counted as zero fixes. -/
theorem spec_c5 (code : String) (suggestions : List SuggPair)
    (errors : List String) :
    ((∀ p ∈ suggestions, ∀ r ∈ suggReplacements p.1,
        classifyRepl code [] r = ReplOutcome.identical) →
      (fixFile code suggestions errors).cf = CodeFix.new code ∧
      (fixFile code suggestions errors).cf.modified = false ∧
      (fixFile code suggestions errors).num_fixes = 0 ∧
      (fixFile code suggestions errors).errors = errors) ∧
    ((suggestions.reverse).foldl fixStep (fixFile code suggestions errors)).cf =
      (fixFile code suggestions errors).cf ∧
    ((suggestions.reverse).foldl fixStep
        (fixFile code suggestions errors)).num_fixes =
      (fixFile code suggestions errors).num_fixes := by
  constructor
  · intro h
    obtain ⟨h1, h2, h3⟩ := fixFile_all_identical code suggestions errors h
    exact ⟨h1, by rw [h1]; rfl, h2, h3⟩
  · have horig : (fixFile code suggestions errors).cf.original = code := by
      unfold fixFile
      rw [fixFold_cf_original]
      rfl
    have hshape : ∀ cf : CodeFix, cf.original = code →
        cf = ⟨code, cf.patches, cf.modified⟩ := by
      intro cf h
      cases cf
      dsimp only at h ⊢
      rw [h]
    exact fixFold_second code (fixFile code suggestions errors).cf.patches
      (fixFile code suggestions errors).cf.modified suggestions.reverse
      ⟨CodeFix.new code, 0, errors, []⟩ (fixFile code suggestions errors)
      (by simp [CodeFix.new]) (hshape _ horig)
      (by intro x hx; simp [CodeFix.new] at hx)
      (fun x hx => hx)

/-- A suggestion whose single replacement targets a file under the registry
cache. -/
def suggC6 : Suggestion :=
  ⟨[⟨[⟨⟨"/cargo_home/registry/lib.rs", 0, 1⟩, "x"⟩]⟩]⟩

/-- A diagnostic with rendered text whose suggestion targets the registry
cache. -/
def mC6 : Message := ⟨buW, ⟨some "ERR", some suggC6⟩⟩

/-- Claim C6 (corrected): a machine-applicable, single-file suggestion whose
target path falls under the protected registry cache or sysroot is never
recorded in the file map — its edit is never applied or written — but,
unlike every other rejection reason, the branch drops the diagnostic without
touching the error set: the rendered text is NOT preserved, only the unit's
(possibly empty) error entry is created. -/
theorem spec_c6 (env : CollectEnv) (seen : List BuildUnit)
    (st : ErrorsMap × UnitMap) (m : Message) (sugg : Suggestion)
    (file : String) (rest : List String)
    (hseen : m.build_unit ∉ seen)
    (hsugg : collect_suggestions m.message = some sugg)
    (hfiles : suggestionFiles sugg = file :: rest)
    (hone : (rest.any fun f => f ≠ file) = false)
    (hprot : isProtected env file = true) :
    collectStep env seen st (.message m) =
      (imOrInsert st.1 m.build_unit [], imOrInsert st.2 m.build_unit []) := by
  unfold collectStep
  dsimp only
  rw [if_neg hseen, hsugg]
  dsimp only
  rw [hfiles]
  dsimp only
  rw [if_neg (by rw [hone]; simp), if_pos hprot]

theorem spec_c6_witness :
    collectStep envW.collectEnv [] ([], []) (.message mC6) =
      (imOrInsert ([] : ErrorsMap) buW [], imOrInsert ([] : UnitMap) buW []) :=
  spec_c6 envW.collectEnv [] ([], []) mC6 suggC6 "/cargo_home/registry/lib.rs"
    [] (by simp [mC6]) rfl rfl rfl (by decide)

theorem spec_c6_counterexample :
    mC6.message.rendered = some "ERR" ∧
    collect_errors envW.collectEnv [CheckOutput.message mC6] [] =
      ([(buW, [])], [(buW, [])]) :=
  ⟨rfl, rfl⟩

/-- A suggestion whose replacements name two distinct files. -/
def suggC7 : Suggestion :=
  ⟨[⟨[⟨⟨"a.rs", 0, 1⟩, "x"⟩, ⟨⟨"b.rs", 0, 1⟩, "y"⟩]⟩]⟩

/-- A diagnostic with rendered text whose suggestion spans two files. -/
def mC7 : Message := ⟨buW, ⟨some "E7", some suggC7⟩⟩

/-- Claim C7: a suggestion with no replacements at all, or whose replacements
name more than one distinct file, is never added to any file's edit list;
only the unit's error entry is created, with the rendered text (when
present) inserted, so it surfaces in the error output. -/
theorem spec_c7 (env : CollectEnv) (seen : List BuildUnit)
    (st : ErrorsMap × UnitMap) (m : Message) (sugg : Suggestion)
    (hseen : m.build_unit ∉ seen)
    (hsugg : collect_suggestions m.message = some sugg)
    (hbad : suggestionFiles sugg = [] ∨
      ∃ file rest, suggestionFiles sugg = file :: rest ∧
        (rest.any fun f => f ≠ file) = true) :
    collectStep env seen st (.message m) =
      (insertRendered (imOrInsert st.1 m.build_unit []) m.build_unit
        m.message.rendered,
       imOrInsert st.2 m.build_unit []) ∧
    ∀ s, m.message.rendered = some s →
      ∃ l, imLookup (collectStep env seen st (.message m)).1 m.build_unit =
        some l ∧ s ∈ l := by
  have heq : collectStep env seen st (.message m) =
      (insertRendered (imOrInsert st.1 m.build_unit []) m.build_unit
        m.message.rendered,
       imOrInsert st.2 m.build_unit []) := by
    unfold collectStep
    dsimp only
    rw [if_neg hseen, hsugg]
    dsimp only
    rcases hbad with hf | ⟨file, rest, hf, hany⟩
    · rw [hf]
    · rw [hf]
      dsimp only
      rw [if_pos hany]
  refine ⟨heq, ?_⟩
  intro s hs
  rw [heq]
  dsimp only
  rw [hs]
  dsimp only [insertRendered]
  rw [imLookup_update_self, imLookup_orInsert_self]
  cases hl : imLookup st.1 m.build_unit with
  | none => exact ⟨isInsert [] s, rfl, mem_isInsert_self [] s⟩
  | some l => exact ⟨isInsert l s, rfl, mem_isInsert_self l s⟩

theorem spec_c7_witness :
    collectStep envW.collectEnv [] ([], []) (.message mC7) =
      (insertRendered (imOrInsert ([] : ErrorsMap) buW []) buW
        mC7.message.rendered,
       imOrInsert ([] : UnitMap) buW []) ∧
    ∀ s, mC7.message.rendered = some s →
      ∃ l, imLookup (collectStep envW.collectEnv [] ([], [])
        (.message mC7)).1 buW = some l ∧ s ∈ l :=
  spec_c7 envW.collectEnv [] ([], []) mC7 suggC7 (by simp [mC7]) rfl
    (Or.inr ⟨"a.rs", ["b.rs"], rfl, rfl⟩)

/-- Claim C8: when reading a file's current text fails, every candidate edit
of that file is abandoned for the pass: the whole entry reduces to extending
the error set with the suggestions' rendered texts, each such rendered text
reaches the resulting error set, no write ever targets that file (when it
has no later entry), and processing continues with the remaining files. -/
theorem spec_c8 (fsys : String → Option String) (files : List (String × Nat))
    (file : String) (suggestions : List SuggPair) (rest : FileMap)
    (errors : List String) (hread : fsys file = none) :
    fix_errors fsys files ((file, suggestions) :: rest) errors =
      fix_errors fsys files rest
        ((suggestions.filterMap fun p => p.2).foldl isInsert errors) ∧
    (∀ r ∈ suggestions.filterMap fun p => p.2,
      r ∈ (fix_errors fsys files ((file, suggestions) :: rest) errors).errors) ∧
    (file ∉ imKeys rest →
      ∀ w ∈ (fix_errors fsys files ((file, suggestions) :: rest) errors).writes,
        w.1 ≠ file) := by
  have heq : fix_errors fsys files ((file, suggestions) :: rest) errors =
      fix_errors fsys files rest
        ((suggestions.filterMap fun p => p.2).foldl isInsert errors) := by
    conv_lhs => unfold fix_errors
    rw [hread]
  refine ⟨heq, ?_, ?_⟩
  · intro r hr
    rw [heq]
    exact fix_errors_errors_sub rest fsys files _
      (mem_foldl_isInsert_of_mem_list _ errors r hr)
  · intro hfile w hw
    rw [heq] at hw
    have hk := fix_errors_writes_keys rest fsys files _ w hw
    intro he
    rw [he] at hk
    exact hfile hk

theorem spec_c8_witness :
    fix_errors fsysW [] [("f.rs", [(suggC7, some "E8")])] [] =
      fix_errors fsysW [] []
        (([(suggC7, some "E8")].filterMap fun p => p.2).foldl isInsert []) ∧
    (∀ r ∈ [(suggC7, some "E8")].filterMap fun p => p.2,
      r ∈ (fix_errors fsysW [] [("f.rs", [(suggC7, some "E8")])] []).errors) ∧
    ("f.rs" ∉ imKeys ([] : FileMap) →
      ∀ w ∈ (fix_errors fsysW [] [("f.rs", [(suggC7, some "E8")])] []).writes,
        w.1 ≠ "f.rs") :=
  spec_c8 fsysW [] "f.rs" [(suggC7, some "E8")] [] [] rfl

/-- Claim C9: the run's result ignores the build subprocess's exit code —
two pass oracles with the same decoded messages and arbitrary exit codes
drive identical runs — and with the version-control precondition satisfied
the run returns `Ok`, with every residual error text of the last pass
printed trimmed of trailing whitespace and followed by a blank line. -/
theorem spec_c9 (env : ExecEnv)
    (passes passes' : Nat → List CheckOutput × Option Int)
    (fsys : String → Option String) (fuel : Nat)
    (hvcs : env.vcsOk = true)
    (hsame : ∀ i, (passes i).1 = (passes' i).1) :
    exec env passes fsys fuel = exec env passes' fsys fuel ∧
    ∃ r, exec env passes fsys fuel = Except.ok r ∧
      ∀ res, r = some res →
        ∀ e ∈ errorsFlat res.2.1.last_errors,
          Event.errorPrint (e.trimRight ++ "\n\n") ∈ res.1 := by
  constructor
  · unfold exec
    rw [execLoop_exit_code_irrelevant env passes passes' hsame]
  · unfold exec
    rw [if_pos hvcs]
    refine ⟨_, rfl, ?_⟩
    intro res hres e he
    cases hrun : execLoop env passes fuel 0 (initState fsys) with
    | none => rw [hrun] at hres; simp at hres
    | some v =>
      rw [hrun] at hres
      dsimp only [Option.map] at hres
      injection hres with hres
      subst hres
      dsimp only at he ⊢
      refine List.mem_append.mpr (Or.inr ?_)
      unfold finalEvents
      refine List.mem_append.mpr (Or.inr ?_)
      unfold printErrors
      exact List.mem_map_of_mem _ he

theorem spec_c9_witness :
    exec envW (fun _ => ([], some 0)) fsysW 2 =
      exec envW (fun _ => ([], some 1)) fsysW 2 ∧
    ∃ r, exec envW (fun _ => ([], some 0)) fsysW 2 = Except.ok r ∧
      ∀ res, r = some res →
        ∀ e ∈ errorsFlat res.2.1.last_errors,
          Event.errorPrint (e.trimRight ++ "\n\n") ∈ res.1 :=
  spec_c9 envW (fun _ => ([], some 0)) (fun _ => ([], some 1)) fsysW 2 rfl
    (fun _ => rfl)

/-- Claim C10 (corrected: it needs the unit not to be the current target): a
not-yet-seen unit reported in a pass only through fresh artifact events gets
no entry in the map `collect_errors` returns, and — provided it is not
already the current target — that pass neither announces it, selects it,
runs `fix_errors` for it, nor adds it to the seen set.  When the unit IS the
current target, the pass still announces it and moves it to the seen set
(the finalize branches), so the unqualified claim fails. -/
theorem spec_c10 (env : ExecEnv) (messages : List CheckOutput)
    (st st' : ExecState) (tr : List Event) (cont : Bool) (u : BuildUnit)
    (hfresh : ∀ out ∈ messages, CheckOutput.buildUnit out = u →
      ∃ a, out = CheckOutput.artifact a ∧ a.fresh = true)
    (hseen : u ∉ st.seen) (hcur : st.current_target ≠ some u)
    (hstep : execPass env messages st = (st', tr, cont)) :
    imLookup (collect_errors env.collectEnv messages st.seen).2 u = none ∧
    u ∉ st'.seen ∧ Event.checking u ∉ tr ∧ Event.selected u ∉ tr ∧
    Event.fixUnit u ∉ tr := by
  have hlook := collect_map_lookup_none env.collectEnv st.seen u messages
    (fun out ho hbu => Or.inr (hfresh out ho hbu))
  obtain ⟨h1, h2, h3, h4⟩ :=
    execPass_c10 env messages st st' tr cont u hlook hseen hcur hstep
  exact ⟨hlook, h1, h2, h3, h4⟩

theorem spec_c10_witness :
    imLookup (collect_errors envW.collectEnv
      [CheckOutput.artifact ⟨buW, true⟩] (initState fsysW).seen).2 buW =
      none ∧
    buW ∉ stFW.seen ∧ Event.checking buW ∉ ([] : List Event) ∧
    Event.selected buW ∉ ([] : List Event) ∧
    Event.fixUnit buW ∉ ([] : List Event) :=
  spec_c10 envW [CheckOutput.artifact ⟨buW, true⟩] (initState fsysW) stFW []
    false buW
    (fun out ho _ => by
      rw [List.mem_singleton] at ho
      exact ⟨⟨buW, true⟩, ho, rfl⟩)
    (by simp [initState]) (by simp [initState]) rfl

/-- A state in which `buW` is the current target and not yet seen. -/
def stC10 : ExecState := ⟨[], 1, [], some buW, [], fsysW⟩

theorem spec_c10_counterexample :
    imLookup (collect_errors envW.collectEnv
      [CheckOutput.artifact ⟨buW, true⟩] stC10.seen).2 buW = none ∧
    buW ∉ stC10.seen ∧
    buW ∈ (execPass envW [CheckOutput.artifact ⟨buW, true⟩] stC10).1.seen ∧
    Event.checking buW ∈
      (execPass envW [CheckOutput.artifact ⟨buW, true⟩] stC10).2.1 := by
  refine ⟨rfl, by simp [stC10], ?_, ?_⟩ <;> decide
